import Mathlib

/-!
Verification development for the sitemap-driven internal-link-opportunity
scanner (`src/app.py`).  The Python source is shallowly embedded over
`List Char` (Python `str` values are modelled as lists of Unicode scalar
values).  Library routines the source calls (`urllib.parse`,
`str.strip`, `str.split`, truthiness of strings) are modelled from
CPython's semantics; the HTML/XML tree queries performed through
BeautifulSoup are external collaborators per the specification and are
modelled abstractly as fields of a fetched document.
-/

namespace App

/-- Python strings, modelled as lists of Unicode scalar values. -/
abbrev Str := List Char

/-- Characters removed at both ends by Python `str.strip()` (the ASCII
whitespace subset; exotic Unicode space characters are not modelled). -/
def pyWs (c : Char) : Bool :=
  c.toNat == 32 || c.toNat == 9 || c.toNat == 10 || c.toNat == 13 ||
    c.toNat == 11 || c.toNat == 12

/-- Python `str.strip()`. -/
def pyStrip (l : Str) : Str :=
  ((l.dropWhile pyWs).reverse.dropWhile pyWs).reverse

/-- Python `str.lower()` restricted to ASCII case folding (the source only
lowercases URL schemes, hosts and query keys, which are ASCII in practice). -/
def lowerStr (l : Str) : Str := l.map Char.toLower

/-- Split a list at the first occurrence of `ch`; `none` as the second
component records that `ch` does not occur (Python `s.split(ch, 1)`). -/
def splitAtFirst? (ch : Char) : Str → Str × Option Str
  | [] => ([], none)
  | c :: rest =>
    if c = ch then ([], some rest)
    else
      let p := splitAtFirst? ch rest
      (c :: p.1, p.2)

/-- Split at the first occurrence of `ch`, returning `[]` for the tail when
`ch` is absent (the shape used by `urlsplit`'s `'#'`/`'?'` handling, where
an absent delimiter and an empty tail are not distinguished downstream). -/
def splitAtFirst (ch : Char) (l : Str) : Str × Str :=
  let p := splitAtFirst? ch l
  (p.1, p.2.getD [])

theorem splitAtFirst?_some_length {ch : Char} :
    ∀ {l a b : Str}, splitAtFirst? ch l = (a, some b) → b.length < l.length := by
  intro l
  induction l with
  | nil => intro a b h; simp [splitAtFirst?] at h
  | cons c rest ih =>
    intro a b h
    simp only [splitAtFirst?] at h
    split at h
    · simp at h
      simp [← h.2]
    · have h2 : (splitAtFirst? ch rest).2 = some b := by
        have := congrArg Prod.snd h
        simpa using this
      rcases hr : splitAtFirst? ch rest with ⟨a', b'⟩
      rw [hr] at h2
      simp at h2
      subst h2
      have := ih hr
      simp; omega

/-- Python `str.split(sep)` for a one-character separator (note
`"".split(sep) == [""]`). -/
def pySplitOn (ch : Char) : Str → List Str
  | [] => [[]]
  | c :: rest =>
    if c = ch then [] :: pySplitOn ch rest
    else
      match pySplitOn ch rest with
      | [] => [[c]]
      | s :: ss => (c :: s) :: ss

/-! ### Percent-encoding (`urllib.parse.quote_plus` / `unquote_plus`)

CPython quotes via the UTF-8 bytes of each character and unquotes by
percent-decoding byte runs and decoding them as UTF-8 with
`errors='replace'`.  Bytes are modelled as `Nat`s below 256.  (On
malformed input the number of replacement characters produced can differ
from CPython's WHATWG-style maximal-subpart rule; no claim depends on
malformed escape sequences.) -/

/-- UTF-8 encoding of a Unicode scalar value. -/
def utf8EncodeNat (n : Nat) : List Nat :=
  if n < 0x80 then [n]
  else if n < 0x800 then [0xC0 + n / 0x40, 0x80 + n % 0x40]
  else if n < 0x10000 then
    [0xE0 + n / 0x1000, 0x80 + (n / 0x40) % 0x40, 0x80 + n % 0x40]
  else
    [0xF0 + n / 0x40000, 0x80 + (n / 0x1000) % 0x40, 0x80 + (n / 0x40) % 0x40,
      0x80 + n % 0x40]

/-- The U+FFFD replacement character used by `errors='replace'`. -/
def replChar : Char := Char.ofNat 0xFFFD

/-- One-byte-at-a-time UTF-8 decoder with `errors='replace'`.
`pend = some (v, need, size)` is a partially decoded sequence: value `v`
so far, `need` continuation bytes missing, from a `size`-byte lead.  A
valid completed sequence must not be overlong, a surrogate, or beyond
U+10FFFF.  (On malformed input the placement and number of replacement
characters can differ from CPython's maximal-subpart rule — an invalid
continuation byte is consumed rather than re-examined; no claim depends
on malformed sequences.) -/
def utf8DecGo : Option (Nat × Nat × Nat) → List Nat → Str
  | none, [] => []
  | some _, [] => [replChar]
  | none, b :: rest =>
    if b < 0x80 then Char.ofNat b :: utf8DecGo none rest
    else if 0xC2 ≤ b ∧ b ≤ 0xDF then utf8DecGo (some (b - 0xC0, 1, 2)) rest
    else if 0xE0 ≤ b ∧ b ≤ 0xEF then utf8DecGo (some (b - 0xE0, 2, 3)) rest
    else if 0xF0 ≤ b ∧ b ≤ 0xF4 then utf8DecGo (some (b - 0xF0, 3, 4)) rest
    else replChar :: utf8DecGo none rest
  | some (v, need, size), b :: rest =>
    if 0x80 ≤ b ∧ b ≤ 0xBF then
      if need ≤ 1 then
        if (size = 2 ∧ 0x80 ≤ v * 0x40 + (b - 0x80)) ∨
            (size = 3 ∧ 0x800 ≤ v * 0x40 + (b - 0x80) ∧
              ¬(0xD800 ≤ v * 0x40 + (b - 0x80) ∧ v * 0x40 + (b - 0x80) ≤ 0xDFFF)) ∨
            (size = 4 ∧ 0x10000 ≤ v * 0x40 + (b - 0x80) ∧
              v * 0x40 + (b - 0x80) < 0x110000) then
          Char.ofNat (v * 0x40 + (b - 0x80)) :: utf8DecGo none rest
        else replChar :: utf8DecGo none rest
      else utf8DecGo (some (v * 0x40 + (b - 0x80), need - 1, size)) rest
    else replChar :: utf8DecGo none rest

/-- UTF-8 decoding of a byte list. -/
def utf8Dec (bs : List Nat) : Str := utf8DecGo none bs

/-- Characters never percent-encoded by `quote` (CPython's
`_ALWAYS_SAFE`, with the default `safe=''`). -/
def safeChar (c : Char) : Bool :=
  (48 ≤ c.toNat && c.toNat ≤ 57) || (65 ≤ c.toNat && c.toNat ≤ 90) ||
    (97 ≤ c.toNat && c.toNat ≤ 122) ||
    c.toNat == 95 || c.toNat == 46 || c.toNat == 45 || c.toNat == 126

/-- Uppercase hex digits, as used by CPython's `Quoter`. -/
def hexDigits : Str := "0123456789ABCDEF".toList

/-- Two-digit uppercase hex rendering of a byte. -/
def toHex2 (n : Nat) : Str := [hexDigits.getD (n / 16) '0', hexDigits.getD (n % 16) '0']

/-- Percent-escape one character (UTF-8 bytes, uppercase hex), or keep it
when safe. -/
def quoteChar (c : Char) : Str :=
  if safeChar c then [c]
  else (utf8EncodeNat c.toNat).flatMap (fun b => '%' :: toHex2 b)

/-- `urllib.parse.quote_plus` with `safe=''`: safe characters kept, space
mapped to `'+'`, everything else percent-escaped. -/
def quote_plus (s : Str) : Str :=
  s.flatMap (fun c => if c = ' ' then ['+'] else quoteChar c)

def isHexDigit (c : Char) : Bool :=
  (48 ≤ c.toNat && c.toNat ≤ 57) || (97 ≤ c.toNat && c.toNat ≤ 102) ||
    (65 ≤ c.toNat && c.toNat ≤ 70)

def hexVal (c : Char) : Nat :=
  if c.toNat ≤ 57 then c.toNat - 48
  else if 97 ≤ c.toNat then c.toNat - 87
  else c.toNat - 55

/-- Worker for `unquote`: scans the input, accumulating the bytes of
percent-escapes and literal ASCII characters; a maximal byte run is
UTF-8-decoded when a non-ASCII literal or the end of input is reached. -/
def pyUnquoteAux : Str → List Nat → Str
  | [], acc => utf8Dec acc
  | '%' :: a :: b :: rest, acc =>
    if isHexDigit a ∧ isHexDigit b then
      pyUnquoteAux rest (acc ++ [16 * hexVal a + hexVal b])
    else pyUnquoteAux (a :: b :: rest) (acc ++ [37])
  | '%' :: rest, acc => pyUnquoteAux rest (acc ++ [37])
  | c :: rest, acc =>
    if c.toNat < 128 then pyUnquoteAux rest (acc ++ [c.toNat])
    else utf8Dec acc ++ c :: pyUnquoteAux rest []

/-- `urllib.parse.unquote` with `errors='replace'`. -/
def pyUnquote (s : Str) : Str := pyUnquoteAux s []

/-- `urllib.parse.unquote_plus`. -/
def unquote_plus (s : Str) : Str :=
  pyUnquote (s.map (fun c => if c = '+' then ' ' else c))

theorem char_valid_nat (c : Char) :
    c.toNat < 0xD800 ∨ (0xDFFF < c.toNat ∧ c.toNat < 0x110000) := c.valid

/-- Decoding the UTF-8 bytes of a valid scalar value at the head of a
byte stream yields that character followed by the decode of the tail. -/
theorem utf8Dec_encode (c : Char) (bs : List Nat) :
    utf8Dec (utf8EncodeNat c.toNat ++ bs) = c :: utf8Dec bs := by
  have hv := char_valid_nat c
  unfold utf8Dec
  rcases Nat.lt_or_ge c.toNat 0x80 with h1 | h1
  · rw [utf8EncodeNat, if_pos h1, List.cons_append, List.nil_append, utf8DecGo,
      if_pos h1, Char.ofNat_toNat]
  rcases Nat.lt_or_ge c.toNat 0x800 with h2 | h2
  · rw [utf8EncodeNat, if_neg (show ¬ c.toNat < 0x80 by omega), if_pos h2]
    simp only [List.cons_append, List.nil_append]
    rw [utf8DecGo, if_neg (show ¬ 0xC0 + c.toNat / 0x40 < 0x80 by omega),
      if_pos (show 0xC2 ≤ 0xC0 + c.toNat / 0x40 ∧ 0xC0 + c.toNat / 0x40 ≤ 0xDF by omega)]
    rw [utf8DecGo,
      if_pos (show 0x80 ≤ 0x80 + c.toNat % 0x40 ∧ 0x80 + c.toNat % 0x40 ≤ 0xBF by omega),
      if_pos (show (1 : Nat) ≤ 1 from le_refl 1)]
    rw [show (0xC0 + c.toNat / 0x40 - 0xC0) * 0x40 + (0x80 + c.toNat % 0x40 - 0x80)
      = c.toNat by omega]
    rw [if_pos (Or.inl ⟨rfl, h1⟩), Char.ofNat_toNat]
  rcases Nat.lt_or_ge c.toNat 0x10000 with h3 | h3
  · rw [utf8EncodeNat, if_neg (show ¬ c.toNat < 0x80 by omega),
      if_neg (show ¬ c.toNat < 0x800 by omega), if_pos h3]
    simp only [List.cons_append, List.nil_append]
    rw [utf8DecGo, if_neg (show ¬ 0xE0 + c.toNat / 0x1000 < 0x80 by omega),
      if_neg (show ¬ (0xC2 ≤ 0xE0 + c.toNat / 0x1000 ∧ 0xE0 + c.toNat / 0x1000 ≤ 0xDF)
        by omega),
      if_pos (show 0xE0 ≤ 0xE0 + c.toNat / 0x1000 ∧ 0xE0 + c.toNat / 0x1000 ≤ 0xEF
        by omega)]
    rw [utf8DecGo,
      if_pos (show 0x80 ≤ 0x80 + (c.toNat / 0x40) % 0x40 ∧
        0x80 + (c.toNat / 0x40) % 0x40 ≤ 0xBF by omega),
      if_neg (show ¬ (2 : Nat) ≤ 1 by omega)]
    rw [utf8DecGo,
      if_pos (show 0x80 ≤ 0x80 + c.toNat % 0x40 ∧ 0x80 + c.toNat % 0x40 ≤ 0xBF by omega),
      if_pos (show (2 - 1 : Nat) ≤ 1 by omega)]
    rw [show ((0xE0 + c.toNat / 0x1000 - 0xE0) * 0x40 +
        (0x80 + (c.toNat / 0x40) % 0x40 - 0x80)) * 0x40 + (0x80 + c.toNat % 0x40 - 0x80)
      = c.toNat by omega]
    rw [if_pos (Or.inr (Or.inl ⟨rfl, by omega, by omega⟩)), Char.ofNat_toNat]
  · rw [utf8EncodeNat, if_neg (show ¬ c.toNat < 0x80 by omega),
      if_neg (show ¬ c.toNat < 0x800 by omega), if_neg (show ¬ c.toNat < 0x10000 by omega)]
    simp only [List.cons_append, List.nil_append]
    have hr : c.toNat < 0x110000 := by omega
    rw [utf8DecGo, if_neg (show ¬ 0xF0 + c.toNat / 0x40000 < 0x80 by omega),
      if_neg (show ¬ (0xC2 ≤ 0xF0 + c.toNat / 0x40000 ∧ 0xF0 + c.toNat / 0x40000 ≤ 0xDF)
        by omega),
      if_neg (show ¬ (0xE0 ≤ 0xF0 + c.toNat / 0x40000 ∧ 0xF0 + c.toNat / 0x40000 ≤ 0xEF)
        by omega),
      if_pos (show 0xF0 ≤ 0xF0 + c.toNat / 0x40000 ∧ 0xF0 + c.toNat / 0x40000 ≤ 0xF4
        by omega)]
    rw [utf8DecGo,
      if_pos (show 0x80 ≤ 0x80 + (c.toNat / 0x1000) % 0x40 ∧
        0x80 + (c.toNat / 0x1000) % 0x40 ≤ 0xBF by omega),
      if_neg (show ¬ (3 : Nat) ≤ 1 by omega)]
    rw [utf8DecGo,
      if_pos (show 0x80 ≤ 0x80 + (c.toNat / 0x40) % 0x40 ∧
        0x80 + (c.toNat / 0x40) % 0x40 ≤ 0xBF by omega),
      if_neg (show ¬ (3 - 1 : Nat) ≤ 1 by omega)]
    rw [utf8DecGo,
      if_pos (show 0x80 ≤ 0x80 + c.toNat % 0x40 ∧ 0x80 + c.toNat % 0x40 ≤ 0xBF by omega),
      if_pos (show (3 - 1 - 1 : Nat) ≤ 1 by omega)]
    rw [show (((0xF0 + c.toNat / 0x40000 - 0xF0) * 0x40 +
        (0x80 + (c.toNat / 0x1000) % 0x40 - 0x80)) * 0x40 +
        (0x80 + (c.toNat / 0x40) % 0x40 - 0x80)) * 0x40 + (0x80 + c.toNat % 0x40 - 0x80)
      = c.toNat by omega]
    rw [if_pos (Or.inr (Or.inr ⟨rfl, by omega, hr⟩)), Char.ofNat_toNat]

/-- Decoding the concatenated UTF-8 encodings of a string recovers it. -/
theorem utf8Dec_flatMap (s : Str) :
    utf8Dec (s.flatMap (fun c => utf8EncodeNat c.toNat)) = s := by
  induction s with
  | nil => rw [List.flatMap_nil, utf8Dec, utf8DecGo]
  | cons c rest ih => rw [List.flatMap_cons, utf8Dec_encode, ih]

theorem char_eq_iff_toNat {c d : Char} : c = d ↔ c.toNat = d.toNat := by
  constructor
  · intro h; rw [h]
  · intro h
    have := congrArg Char.ofNat h
    rwa [Char.ofNat_toNat, Char.ofNat_toNat] at this

theorem pyUnquoteAux_nil (acc : List Nat) : pyUnquoteAux [] acc = utf8Dec acc := by
  rw [pyUnquoteAux]

theorem pyUnquoteAux_ascii (c : Char) (rest : Str) (acc : List Nat)
    (hne : c ≠ '%') (hlt : c.toNat < 128) :
    pyUnquoteAux (c :: rest) acc = pyUnquoteAux rest (acc ++ [c.toNat]) := by
  rw [pyUnquoteAux.eq_def]
  simp [hne, hlt]

theorem pyUnquoteAux_escape (a b : Char) (rest : Str) (acc : List Nat)
    (ha : isHexDigit a = true) (hb : isHexDigit b = true) :
    pyUnquoteAux ('%' :: a :: b :: rest) acc =
      pyUnquoteAux rest (acc ++ [16 * hexVal a + hexVal b]) := by
  rw [pyUnquoteAux.eq_def]
  simp [ha, hb]

theorem hexDigits_spec : ∀ k < 16, isHexDigit (hexDigits.getD k '0') = true ∧
    hexVal (hexDigits.getD k '0') = k ∧ hexDigits.getD k '0' ≠ '%' ∧
    hexDigits.getD k '0' ≠ '+' := by decide

theorem utf8EncodeNat_bound {n : Nat} (h : n < 0x110000) :
    ∀ b ∈ utf8EncodeNat n, b < 256 := by
  intro b hb
  unfold utf8EncodeNat at hb
  repeat' split at hb
  all_goals simp_all
  all_goals omega

/-- A run of percent-escapes feeds exactly the escaped bytes to the
accumulator. -/
theorem pyUnquoteAux_escapes (bytes : List Nat) (hb : ∀ b ∈ bytes, b < 256)
    (rest : Str) (acc : List Nat) :
    pyUnquoteAux ((bytes.flatMap (fun b => '%' :: toHex2 b)) ++ rest) acc
      = pyUnquoteAux rest (acc ++ bytes) := by
  induction bytes generalizing acc with
  | nil => simp
  | cons b bs ih =>
    have hblt : b < 256 := hb _ (by simp)
    have h16 : b / 16 < 16 := by omega
    have h16' : b % 16 < 16 := by omega
    obtain ⟨hh1, hv1, -, -⟩ := hexDigits_spec _ h16
    obtain ⟨hh2, hv2, -, -⟩ := hexDigits_spec _ h16'
    rw [List.flatMap_cons, List.append_assoc,
      show toHex2 b = [hexDigits.getD (b / 16) '0', hexDigits.getD (b % 16) '0'] from rfl]
    simp only [List.cons_append, List.nil_append]
    rw [pyUnquoteAux_escape _ _ _ _ hh1 hh2, hv1, hv2,
      show 16 * (b / 16) + b % 16 = b from by omega,
      ih (fun x hx => hb x (by simp [hx]))]
    simp

theorem safeChar_toNat {c : Char} (h : safeChar c = true) :
    (48 ≤ c.toNat ∧ c.toNat ≤ 57) ∨ (65 ≤ c.toNat ∧ c.toNat ≤ 90) ∨
    (97 ≤ c.toNat ∧ c.toNat ≤ 122) ∨ c.toNat = 95 ∨ c.toNat = 46 ∨ c.toNat = 45 ∨
    c.toNat = 126 := by
  simp only [safeChar, Bool.or_eq_true, Bool.and_eq_true, decide_eq_true_eq,
    beq_iff_eq] at h
  tauto

theorem safeChar_lt_128 {c : Char} (h : safeChar c = true) : c.toNat < 128 := by
  have := safeChar_toNat h
  omega

theorem safeChar_ne {c : Char} (h : safeChar c = true) : c ≠ '%' ∧ c ≠ '+' := by
  have hr := safeChar_toNat h
  constructor <;> (intro he; rw [char_eq_iff_toNat] at he)
  · rw [show ('%').toNat = 37 from rfl] at he; omega
  · rw [show ('+').toNat = 43 from rfl] at he; omega

theorem toHex2_map_plus {b : Nat} (hb : b < 256) :
    ('%' :: toHex2 b).map (fun c => if c = '+' then ' ' else c) = '%' :: toHex2 b := by
  obtain ⟨-, -, -, hp1⟩ := hexDigits_spec (b / 16) (by omega)
  obtain ⟨-, -, -, hp2⟩ := hexDigits_spec (b % 16) (by omega)
  simp only [toHex2, List.map_cons, List.map_nil]
  rw [if_neg (show ¬ ('%' : Char) = '+' from by decide), if_neg hp1, if_neg hp2]

/-- `unquote_plus` inverts `quote_plus`, stated with a byte accumulator to
enable induction. -/
theorem pyUnquoteAux_quote_plus (s : Str) (acc : List Nat) :
    pyUnquoteAux ((quote_plus s).map (fun c => if c = '+' then ' ' else c)) acc
      = utf8Dec (acc ++ s.flatMap (fun c => utf8EncodeNat c.toNat)) := by
  induction s generalizing acc with
  | nil => simp [quote_plus, pyUnquoteAux_nil]
  | cons c s' ih =>
    have hval : c.toNat < 0x110000 := by
      rcases char_valid_nat c with h | h
      · omega
      · omega
    have hsplit : quote_plus (c :: s')
        = (if c = ' ' then ['+'] else quoteChar c) ++ quote_plus s' := by
      rw [quote_plus, List.flatMap_cons]; rfl
    rw [hsplit, List.map_append]
    by_cases hsp : c = ' '
    · subst hsp
      rw [if_pos rfl]
      rw [show (['+'].map (fun c => if c = '+' then ' ' else c)) = [' '] from by decide]
      rw [List.cons_append,
        pyUnquoteAux_ascii _ _ _ (by decide) (by decide)]
      rw [List.nil_append, ih]
      simp [show (' ').toNat = 32 from rfl, utf8EncodeNat]
    · rw [if_neg hsp, quoteChar]
      by_cases hsafe : safeChar c = true
      · rw [if_pos hsafe]
        obtain ⟨hpc, hplus⟩ := safeChar_ne hsafe
        rw [show ([c].map (fun c => if c = '+' then ' ' else c)) = [c] from by
          simp [hplus]]
        rw [List.cons_append, pyUnquoteAux_ascii _ _ _ hpc (safeChar_lt_128 hsafe)]
        rw [List.nil_append, ih]
        have henc : utf8EncodeNat c.toNat = [c.toNat] := by
          simp [utf8EncodeNat, safeChar_lt_128 hsafe]
        rw [List.flatMap_cons, henc]
        simp
      · rw [if_neg hsafe]
        have hbnd := utf8EncodeNat_bound hval
        have hmap : ((utf8EncodeNat c.toNat).flatMap (fun b => '%' :: toHex2 b)).map
            (fun c => if c = '+' then ' ' else c)
            = (utf8EncodeNat c.toNat).flatMap (fun b => '%' :: toHex2 b) := by
          rw [List.map_flatMap]
          refine List.flatMap_congr ?_  -- pointwise equality on members
          intro b hbm
          exact toHex2_map_plus (hbnd b hbm)
        rw [hmap, pyUnquoteAux_escapes _ hbnd, ih]
        simp

/-- CPython roundtrip: `unquote_plus(quote_plus(s)) == s`. -/
theorem unquote_plus_quote_plus (s : Str) : unquote_plus (quote_plus s) = s := by
  rw [unquote_plus, pyUnquote, pyUnquoteAux_quote_plus]
  simpa using utf8Dec_flatMap s

/-! ### URL splitting (`urllib.parse.urlsplit` / `urlparse` and inverses)

The model follows CPython: tab/CR/LF removal, scheme detection at the
first `':'`, `//`-authority extraction up to a `/?#` delimiter, fragment
split at the first `'#'`, query split at the first `'?'`, and parameter
split at the first `';'` of the last path segment.  CPython's
`ValueError` on an authority with unbalanced brackets is modelled by the
`Bool` component of the result (`false` = raises); the further
bracketed-host and netloc NFKC validations, which also raise only for
exotic authorities, are not modelled. -/

/-- CPython `uses_relative` (schemes that support relative joining). -/
def uses_relative : List Str :=
  (["", "ftp", "http", "gopher", "nntp", "imap", "wais", "file", "https",
    "shttp", "mms", "prospero", "rtsp", "rtspu", "sftp", "svn", "svn+ssh",
    "ws", "wss"]).map String.toList

/-- CPython `uses_netloc` (schemes whose URLs carry an authority). -/
def uses_netloc : List Str :=
  (["", "ftp", "http", "gopher", "nntp", "telnet", "imap", "wais", "file",
    "mms", "https", "shttp", "snews", "prospero", "rtsp", "rtspu", "rsync",
    "svn", "svn+ssh", "sftp", "nfs", "git", "git+ssh", "ws", "wss"]).map String.toList

/-- CPython `uses_params` (schemes subject to the `';'` params split). -/
def uses_params : List Str :=
  (["", "ftp", "hdl", "prospero", "http", "imap", "https", "shttp", "rtsp",
    "rtsps", "rtspu", "sip", "sips", "mms", "sftp", "tel"]).map String.toList

def isUnsafeUrlChar (c : Char) : Bool := c.toNat == 9 || c.toNat == 13 || c.toNat == 10

/-- CPython removes `'\t'`, `'\r'`, `'\n'` from the URL before parsing. -/
def removeUnsafe (l : Str) : Str := l.filter (fun c => !(isUnsafeUrlChar c))

def isAsciiAlpha (c : Char) : Bool :=
  (65 ≤ c.toNat && c.toNat ≤ 90) || (97 ≤ c.toNat && c.toNat ≤ 122)

def isAsciiDigit (c : Char) : Bool := 48 ≤ c.toNat && c.toNat ≤ 57

/-- CPython `scheme_chars`: letters, digits and `+-.`. -/
def isSchemeChar (c : Char) : Bool :=
  isAsciiAlpha c || isAsciiDigit c || c.toNat == 43 || c.toNat == 45 || c.toNat == 46

/-- True for characters other than the authority delimiters `/?#`. -/
def notDelim (c : Char) : Bool := !(c.toNat == 47 || c.toNat == 63 || c.toNat == 35)

structure SplitResult where
  scheme : Str
  netloc : Str
  path : Str
  query : Str
  fragment : Str
deriving DecidableEq

/-- CPython `urlsplit` (without the params split): the URL is left-stripped
of C0 controls and space and cleared of tab/CR/LF, the default scheme is
stripped on both ends; the `Bool` is `false` exactly when the modelled
`ValueError` (unbalanced `[`/`]` in the authority) fires. -/
def pyUrlsplitFull (defaultScheme url : Str) : SplitResult × Bool :=
  let url := removeUnsafe (url.dropWhile (fun c => c.toNat ≤ 32))
  let ds := removeUnsafe (((defaultScheme.dropWhile (fun c => c.toNat ≤ 32)).reverse.dropWhile
    (fun c => c.toNat ≤ 32)).reverse)
  let sr :=
    match url.findIdx? (fun c => c == ':') with
    | some i =>
      if 0 < i ∧ isAsciiAlpha (url.headD '0') ∧ (url.take i).all isSchemeChar then
        (lowerStr (url.take i), url.drop (i + 1))
      else (ds, url)
    | none => (ds, url)
  let rest := sr.2
  let nr :=
    if rest.take 2 = ['/', '/'] then
      ((rest.drop 2).takeWhile notDelim, (rest.drop 2).dropWhile notDelim)
    else ([], rest)
  let ok := (nr.1.contains '[' == nr.1.contains ']')
  let fr := splitAtFirst '#' nr.2
  let pq := splitAtFirst '?' fr.1
  (⟨sr.1, nr.1, pq.1, pq.2, fr.2⟩, ok)

/-- The last `'/'`-separated segment of a path (the whole path when it has
no `'/'`). -/
def lastSeg (p : Str) : Str := (p.reverse.takeWhile (fun c => !(c == '/'))).reverse

/-- CPython `_splitparams` guarded by the `';' in url` check of `urlparse`. -/
def splitparams (p : Str) : Str × Str :=
  if p.contains ';' then
    if p.contains '/' then
      let seg := lastSeg p
      if seg.contains ';' then
        let sp := splitAtFirst? ';' seg
        (p.take (p.length - seg.length) ++ sp.1, sp.2.getD [])
      else (p, [])
    else
      let sp := splitAtFirst? ';' p
      (sp.1, sp.2.getD [])
  else (p, [])

structure ParseResult where
  scheme : Str
  netloc : Str
  path : Str
  params : Str
  query : Str
  fragment : Str
deriving DecidableEq

/-- CPython `urlparse`: `urlsplit` plus the params split, applied only
for schemes in `uses_params`. -/
def pyUrlparseFull (defaultScheme url : Str) : ParseResult × Bool :=
  let s := pyUrlsplitFull defaultScheme url
  let pp := if uses_params.contains s.1.scheme then splitparams s.1.path
    else (s.1.path, [])
  (⟨s.1.scheme, s.1.netloc, pp.1, pp.2, s.1.query, s.1.fragment⟩, s.2)

/-- Total projection of `urlparse` (the components CPython would compute
when it does not raise). -/
def pyUrlparseCore (defaultScheme url : Str) : ParseResult :=
  (pyUrlparseFull defaultScheme url).1

/-- CPython `urlunsplit`. -/
def pyUrlunsplit (scheme netloc path query fragment : Str) : Str :=
  let url :=
    if netloc ≠ [] ∨ (scheme ≠ [] ∧ uses_netloc.contains scheme ∧
        path.take 2 ≠ ['/', '/']) then
      ('/' :: '/' :: netloc) ++
        (if path ≠ [] ∧ path.headD ' ' ≠ '/' then '/' :: path else path)
    else path
  let url := if scheme ≠ [] then scheme ++ ':' :: url else url
  let url := if query ≠ [] then url ++ '?' :: query else url
  if fragment ≠ [] then url ++ '#' :: fragment else url

/-- CPython `urlunparse`. -/
def pyUrlunparse (r : ParseResult) : Str :=
  pyUrlunsplit r.scheme r.netloc
    (if r.params ≠ [] then r.path ++ ';' :: r.params else r.path) r.query r.fragment

/-- CPython `parse_qsl(qs, keep_blank_values=True)` with the default `'&'`
separator: blank values and missing `'='` both keep the pair with an empty
value. -/
def parse_qsl (q : Str) : List (Str × Str) :=
  (pySplitOn '&' q).filterMap (fun nv =>
    if nv = [] then none
    else
      let p := splitAtFirst? '=' nv
      match p.2 with
      | some v => some (unquote_plus p.1, unquote_plus v)
      | none => some (unquote_plus nv, []))

def joinWith (ch : Char) : List Str → Str
  | [] => []
  | [x] => x
  | x :: y :: xs => x ++ ch :: joinWith ch (y :: xs)

/-- CPython `urlencode(qs, doseq=True)` over string pairs: each key and
value quoted with `quote_plus`, joined with `'='` and `'&'`. -/
def urlencode (l : List (Str × Str)) : Str :=
  joinWith '&' (l.map (fun kv => quote_plus kv.1 ++ '=' :: quote_plus kv.2))

/-- The tracking-parameter block set of `normalize_url`. -/
def dropParamKeys : List Str :=
  (["utm_source", "utm_medium", "utm_campaign", "utm_term", "utm_content",
    "gclid", "fbclid"]).map String.toList

/-- `normalize_url` (src/app.py lines 17-42): strip, parse, default the
scheme to `https`, lowercase scheme and host, default the path to `/`,
drop the fragment (and, through `urlunparse`'s empty-params argument, the
path params), remove tracking query parameters, strip one trailing slash
from a non-root path, reassemble; any parse error returns the stripped
input. -/
def normalize_url (u0 : Str) : Str :=
  let u := pyStrip u0
  let pr := pyUrlparseFull [] u
  if pr.2 then
    let p := pr.1
    let scheme := lowerStr (if p.scheme = [] then "https".toList else p.scheme)
    let netloc := lowerStr p.netloc
    let path0 := if p.path = [] then ['/'] else p.path
    let qs := parse_qsl p.query
    let qs2 := qs.filter (fun kv => !(dropParamKeys.contains (lowerStr kv.1)))
    let query := urlencode qs2
    let path := if path0 ≠ ['/'] ∧ path0.getLast? = some '/' then path0.dropLast else path0
    pyUrlunparse ⟨scheme, netloc, path, [], query, []⟩
  else u

/-- `segments[1:-1] = filter(None, segments[1:-1])` of CPython `urljoin`. -/
def filterMiddle : List Str → List Str
  | [] => []
  | [x] => [x]
  | x :: y :: xs =>
    x :: (((y :: xs).dropLast.filter (fun s => !s.isEmpty)) ++ [(y :: xs).getLastD []])

/-- The `'..'`/`'.'` resolution loop of CPython `urljoin`. -/
def resolveSegs (acc : List Str) : List Str → List Str
  | [] => acc
  | seg :: rest =>
    if seg = ['.', '.'] then resolveSegs acc.dropLast rest
    else if seg = ['.'] then resolveSegs acc rest
    else resolveSegs (acc ++ [seg]) rest

/-- CPython `urljoin` (the `ValueError` path of `urlsplit` on malformed
bracketed authorities is outside the model's domain; the components used
are the ones `pyUrlparseCore` computes). -/
def urljoin (base url : Str) : Str :=
  if base = [] then url
  else if url = [] then base
  else
    let b := pyUrlparseCore [] base
    let r := pyUrlparseCore b.scheme url
    if r.scheme ≠ b.scheme ∨ ¬ uses_relative.contains r.scheme then url
    else
      let netlocCase := uses_netloc.contains r.scheme
      if netlocCase ∧ r.netloc ≠ [] then
        pyUrlunparse ⟨r.scheme, r.netloc, r.path, r.params, r.query, r.fragment⟩
      else
        let netloc := if netlocCase then b.netloc else r.netloc
        if r.path = [] ∧ r.params = [] then
          let query := if r.query = [] then b.query else r.query
          pyUrlunparse ⟨r.scheme, netloc, b.path, b.params, query, r.fragment⟩
        else
          let baseParts0 := pySplitOn '/' b.path
          let baseParts :=
            if baseParts0.getLastD [] ≠ [] then baseParts0.dropLast else baseParts0
          let segments :=
            if r.path.headD ' ' = '/' then pySplitOn '/' r.path
            else filterMiddle (baseParts ++ pySplitOn '/' r.path)
          let resolved0 := resolveSegs [] segments
          let resolved :=
            if segments.getLastD [] = ['.'] ∨ segments.getLastD [] = ['.', '.'] then
              resolved0 ++ [[]]
            else resolved0
          let newPath := if joinWith '/' resolved = [] then ['/'] else joinWith '/' resolved
          pyUrlunparse ⟨r.scheme, netloc, newPath, r.params, r.query, r.fragment⟩

/-! ### The scanner (src/app.py)

The HTML/XML tree queries (BeautifulSoup) are external collaborators per
spec §6; a fetched document is therefore modelled as its raw text
together with the collaborator views the source reads from it. -/

/-- A fetched document.  `text` is the raw response body (`if not xml`
and `if not html` make an empty body behave like a failed fetch).
`sitemapLocs`/`urlLocs` are the `<sitemap><loc>`/`<url><loc>` text lists
of the XML view, `anchors` the `href` values of `a[href]` elements, and
`visibleRaw` the `soup.get_text(" ", strip=True)` rendition after the
non-content elements are decomposed — all collaborator outputs per
spec §6. -/
structure Doc where
  text : Str
  sitemapLocs : List Str
  urlLocs : List Str
  anchors : List Str
  visibleRaw : Str
deriving DecidableEq

/-- The transport collaborator: one scan's `fetch_text` behaviour,
as a function from URL to optional document (`none` models a non-200
status, timeout or network exception). -/
abbrev Fetch := Str → Option Doc

/-- `fetch_text` (src/app.py lines 107-118): a single GET returning the
body, or `None` on any failure — the oracle `f` is exactly that map. -/
def fetch_text (f : Fetch) (url : Str) : Option Doc := f url

/-- The whitespace-run collapse `re.sub(r"\s+", " ", text)` of
`extract_visible_text` (ASCII whitespace, as in `pyWs`), written with a
previous-character-was-whitespace flag so each run contributes one space. -/
def collapseWsGo (prevWs : Bool) : Str → Str
  | [] => []
  | c :: rest =>
    if pyWs c then
      (if prevWs then collapseWsGo true rest else ' ' :: collapseWsGo true rest)
    else c :: collapseWsGo false rest

def collapseWs (l : Str) : Str := collapseWsGo false l

/-- `extract_visible_text` (src/app.py lines 47-53): the soup text is the
collaborator field `visibleRaw`; the source collapses whitespace runs and
strips. -/
def extract_visible_text (d : Doc) : Str := pyStrip (collapseWs d.visibleRaw)

/-- First index at which `pat` is a prefix of a suffix of the text (the
index `re.search` of an escaped literal reports). -/
def firstOccurIdx (pat : Str) : Str → Option Nat
  | [] => if pat.isPrefixOf ([] : Str) then some 0 else none
  | c :: rest =>
    if pat.isPrefixOf (c :: rest) then some 0
    else (firstOccurIdx pat rest).map (· + 1)

/-- `find_keyword_snippet` (src/app.py lines 55-69): `re.escape(keyword)`
searched with `re.IGNORECASE` is a case-insensitive literal substring
search, modelled by ASCII-lowercasing both sides; the match spans exactly
`len(keyword)` characters.  The snippet is the stripped
`text[start:end]` window with `"… "`/`" …"` markers on truncated sides. -/
def find_keyword_snippet (text keyword : Str) (window : Nat) : Option Str :=
  if keyword = [] then none
  else
    match firstOccurIdx (lowerStr keyword) (lowerStr text) with
    | none => none
    | some i =>
      let start := i - window
      let stop := min text.length (i + keyword.length + window)
      let snippet := pyStrip ((text.drop start).take (stop - start))
      let s1 := if 0 < start then "… ".toList ++ snippet else snippet
      let s2 := if stop < text.length then s1 ++ " …".toList else s1
      some s2

/-- `extract_links` (src/app.py lines 71-80): every non-empty stripped
anchor `href`, resolved against the page URL and normalized.  Python
accumulates them into a set used only for membership tests; the model
keeps the list. -/
def extract_links (d : Doc) (base_url : Str) : List Str :=
  ((d.anchors.map pyStrip).filter (fun h => h ≠ [])).map
    (fun href => normalize_url (urljoin base_url href))

/-- The `uniq` helper of `parse_sitemap_xml` (src/app.py lines 96-103):
drop falsy (empty) entries and duplicates, keeping first occurrences;
the `seen` set is modelled as a membership-probed list. -/
def uniqGo (seen : List Str) : List Str → List Str
  | [] => []
  | x :: xs => if x ≠ [] ∧ x ∉ seen then x :: uniqGo (x :: seen) xs else uniqGo seen xs

def uniq (l : List Str) : List Str := uniqGo [] l

/-- `parse_sitemap_xml` (src/app.py lines 85-105): the two `<loc>` lists
are collaborator fields of the document; the source deduplicates each. -/
def parse_sitemap_xml (d : Doc) : List Str × List Str :=
  (uniq d.sitemapLocs, uniq d.urlLocs)

/-- The `for u in found_urls` loop of `collect_urls_from_sitemap`
(src/app.py lines 146-149): append until `max_urls` is reached, then
break. -/
def appendUpTo (maxU : Nat) : List Str → List Str → List Str
  | urls, [] => urls
  | urls, u :: rest =>
    if maxU ≤ urls.length then urls else appendUpTo maxU (urls ++ [u]) rest

/-- The `for c in child_sitemaps` loop of `collect_urls_from_sitemap`
(src/app.py lines 142-144): enqueue unseen children while the enqueue-time
budget `len(seen) + len(queue) < max_sitemaps` holds. -/
def enqueueChildren (maxS : Nat) (seen : List Str) : List Str → List Str → List Str
  | q, [] => q
  | q, c :: cs =>
    if c ∉ seen ∧ seen.length + q.length < maxS then
      enqueueChildren maxS seen (q ++ [c]) cs
    else enqueueChildren maxS seen q cs

/-- The `while` loop of `collect_urls_from_sitemap` (src/app.py lines
130-149), returning the collected raw page URLs and the visited set (the
Python set is modelled as the list of visited sitemap URLs, each added at
most once).  The guard mirrors `queue and len(seen) < max_sitemaps and
len(urls) < max_urls`; a falsy fetch result (`None` or empty body) skips
the sitemap after marking it visited. -/
def collectLoop (f : Fetch) (maxS maxU : Nat) :
    List Str → List Str → List Str → List Str × List Str
  | [], _seen, urls => (urls, _seen)
  | sm :: rest, seen, urls =>
    if hG : seen.length < maxS ∧ urls.length < maxU then
      if sm ∈ seen then collectLoop f maxS maxU rest seen urls
      else
        match f sm with
        | none => collectLoop f maxS maxU rest (sm :: seen) urls
        | some d =>
          if d.text = [] then collectLoop f maxS maxU rest (sm :: seen) urls
          else
            let ps := parse_sitemap_xml d
            collectLoop f maxS maxU (enqueueChildren maxS (sm :: seen) rest ps.1)
              (sm :: seen) (appendUpTo maxU urls ps.2)
    else (urls, seen)
termination_by queue seen _ => (maxS - seen.length, queue.length)
decreasing_by
  all_goals first
    | exact Prod.Lex.right _ (by simp)
    | exact Prod.Lex.left _ _ (by simp only [List.length_cons]; omega)

/-- `collect_urls_from_sitemap` (src/app.py lines 120-157) with the
bounds passed explicitly (the source defaults are 25 and 5000): run the
BFS loop, then deduplicate the collected URLs exactly as the final loop
does (same falsy-and-membership test as `uniq`). -/
def collect_urls_from_sitemap (f : Fetch) (sitemap_url : Str)
    (max_sitemaps max_urls : Nat) : List Str :=
  uniq (collectLoop f max_sitemaps max_urls [sitemap_url] [] []).1

/-- The result record (src/app.py lines 162-166). -/
structure Opportunity where
  source_url : Str
  matched_keyword : Str
  snippet : Str
deriving DecidableEq

/-- The keyword loop of `scan_one_page` (src/app.py lines 183-187):
first-match-wins in input order.  Python tests `if snip:`, so an empty
snippet string (possible only for all-whitespace keywords) falls through
like a failed match. -/
def scanKeywords (page_url text : Str) : List Str → Option Opportunity
  | [] => none
  | kw :: rest =>
    match find_keyword_snippet text kw 80 with
    | some snip =>
      if snip ≠ [] then some ⟨page_url, kw, snip⟩ else scanKeywords page_url text rest
    | none => scanKeywords page_url text rest

/-- `scan_one_page` (src/app.py lines 168-187): a falsy fetch result is
`None`; a page whose links contain the normalized target is `None`;
otherwise the first matching keyword yields the page's `Opportunity`. -/
def scan_one_page (f : Fetch) (page_url target_norm : Str)
    (keywords : List Str) : Option Opportunity :=
  match fetch_text f page_url with
  | none => none
  | some d =>
    if d.text = [] then none
    else if target_norm ∈ extract_links d page_url then none
    else scanKeywords page_url (extract_visible_text d) keywords

/-- The scan response record (src/app.py lines 230-239). -/
structure ScanResult where
  sitemap_url : Str
  target_url : Str
  keywords : List Str
  scanned_pages : Nat
  opportunities : List Opportunity
deriving DecidableEq

/-- A scan returns either the validation-error payload or a result
(src/app.py lines 198-199 and 230-239). -/
inductive ScanOut where
  | error (msg : Str)
  | ok (r : ScanResult)
deriving DecidableEq

/-- The keyword CSV parsing of `run_scan` (src/app.py line 197). -/
def parseKeywords (csv : Str) : List Str :=
  ((pySplitOn ',' csv).map pyStrip).filter (fun k => k ≠ [])

/-- The page list `run_scan` scans (src/app.py lines 202-210): sitemap
resolution with the source's fixed bounds, the optional same-host filter
on raw (lowercased) netlocs, and truncation to `max_pages`. -/
def resolvedPages (f : Fetch) (sitemap_url : Str) (same_host_only : Bool)
    (max_pages : Nat) : List Str :=
  let root_host := lowerStr (pyUrlparseCore [] sitemap_url).netloc
  let urls := collect_urls_from_sitemap f sitemap_url 25 5000
  let urls :=
    if same_host_only then
      urls.filter (fun u => lowerStr (pyUrlparseCore [] u).netloc = root_host)
    else urls
  urls.take max_pages

/-- `run_scan` (src/app.py lines 189-239).  `asyncio.as_completed`
collects page results in completion order, which is nondeterministic in
the source; the model uses submission order, one admissible completion
order (the specified properties — membership and counts — are
order-independent).  The `concurrency` argument does not affect the
functional result; the semaphore discipline it configures is modelled
separately as the `SemStep` transition system. -/
def run_scan (f : Fetch) (sitemap_url target_url keywords_csv : Str)
    (max_pages : Nat) (concurrency : Nat) (same_host_only : Bool) : ScanOut :=
  let keywords := parseKeywords keywords_csv
  if keywords = [] then .error ("Provide at least one keyword.".toList)
  else
    let target_norm := normalize_url target_url
    let urls := resolvedPages f sitemap_url same_host_only max_pages
    let results := urls.filterMap (fun u => scan_one_page f u target_norm keywords)
    .ok ⟨sitemap_url, target_url, keywords, urls.length, results⟩

/-! ### Helper lemmas -/

theorem isPrefixOf_eq_true_iff {l₁ l₂ : Str} :
    l₁.isPrefixOf l₂ = true ↔ ∃ t, l₂ = l₁ ++ t := by
  induction l₁ generalizing l₂ with
  | nil => simp [List.isPrefixOf]
  | cons a as ih =>
    cases l₂ with
    | nil => simp [List.isPrefixOf]
    | cons b bs =>
      simp only [List.isPrefixOf, Bool.and_eq_true, beq_iff_eq, ih, List.cons_append,
        List.cons.injEq]
      constructor
      · rintro ⟨rfl, t, rfl⟩; exact ⟨t, rfl, rfl⟩
      · rintro ⟨t, rfl, rfl⟩; exact ⟨rfl, t, rfl⟩

theorem appendUpTo_length_le (maxU : Nat) (l : List Str) :
    ∀ urls : List Str, urls.length ≤ maxU → (appendUpTo maxU urls l).length ≤ maxU := by
  induction l with
  | nil => intro urls h; simpa [appendUpTo] using h
  | cons u rest ih =>
    intro urls h
    rw [appendUpTo]
    split
    · exact h
    · exact ih _ (by simp; omega)

theorem uniqGo_length_le (l : List Str) :
    ∀ seen, (uniqGo seen l).length ≤ l.length := by
  induction l with
  | nil => intro seen; simp [uniqGo]
  | cons x xs ih =>
    intro seen
    rw [uniqGo]
    split
    · have := ih (x :: seen); simpa using Nat.succ_le_succ this
    · have := ih seen; simp; omega

/-- Both components of the sitemap BFS loop stay within their budgets. -/
theorem collectLoop_bounds (f : Fetch) (maxS maxU : Nat) :
    ∀ queue seen urls, seen.length ≤ maxS → urls.length ≤ maxU →
      (collectLoop f maxS maxU queue seen urls).1.length ≤ maxU ∧
      (collectLoop f maxS maxU queue seen urls).2.length ≤ maxS := by
  intro queue seen urls
  induction queue, seen, urls using collectLoop.induct f maxS maxU with
  | case1 seen urls =>
    intro h1 h2
    rw [collectLoop]
    exact ⟨h2, h1⟩
  | case2 sm rest seen urls hG hmem ih =>
    intro h1 h2
    rw [collectLoop, dif_pos hG, if_pos hmem]
    exact ih h1 h2
  | case3 sm rest seen urls hG hmem hf ih =>
    intro h1 h2
    rw [collectLoop, dif_pos hG, if_neg hmem, hf]
    exact ih (by simp; omega) h2
  | case4 sm rest seen urls hG hmem d hf hd ih =>
    intro h1 h2
    rw [collectLoop, dif_pos hG, if_neg hmem, hf]
    dsimp only
    rw [if_pos hd]
    exact ih (by simp; omega) h2
  | case5 sm rest seen urls hG hmem d hf hd ps ih =>
    intro h1 h2
    rw [collectLoop, dif_pos hG, if_neg hmem, hf]
    dsimp only
    rw [if_neg hd]
    exact ih (by simp; omega) (appendUpTo_length_le _ _ _ (by omega))
  | case6 sm rest seen urls hG =>
    intro h1 h2
    rw [collectLoop, dif_neg hG]
    exact ⟨h2, h1⟩

/-! ### Claims -/

/-- C2: sitemap resolution is a total function of the fetch oracle (the
loop is defined by well-founded recursion on
`(maxSitemaps - |visited|, |queue|)`, so it terminates on every input
graph, cyclic child references included), it marks at most `maxSitemaps`
sitemap URLs visited, and it returns at most `maxURLs` page entries. -/
theorem claim_C2_sitemap_bounds (f : Fetch) (root : Str) (maxS maxU : Nat) :
    (collect_urls_from_sitemap f root maxS maxU).length ≤ maxU ∧
    (collectLoop f maxS maxU [root] [] []).2.length ≤ maxS := by
  obtain ⟨h1, h2⟩ := collectLoop_bounds f maxS maxU [root] [] []
    (by simp) (by simp)
  refine ⟨?_, h2⟩
  calc (collect_urls_from_sitemap f root maxS maxU).length
      ≤ (collectLoop f maxS maxU [root] [] []).1.length := uniqGo_length_le _ _
    _ ≤ maxU := h1

/-- C3 counterexample: `normalize_url` is not idempotent.  The source
strips exactly one trailing slash, so on `"https://example.com/a//"`
one application yields `"https://example.com/a/"` and a second strips
another slash. -/
theorem claim_C3_counterexample :
    normalize_url (normalize_url ("https://example.com/a//".toList))
      ≠ normalize_url ("https://example.com/a//".toList) ∧
    normalize_url ("https://example.com/a//".toList) = "https://example.com/a/".toList ∧
    normalize_url ("https://example.com/a/".toList) = "https://example.com/a".toList := by
  decide

/-- C8: `normalize_url` is a total function (the model is a total Lean
function: the `try/except` of the source is the `Bool` branch of
`pyUrlparseFull`), and on any input whose parse raises — the modelled
`ValueError` of `urlsplit` — it returns the trimmed input unchanged. -/
theorem claim_C8_normalize_total (u : Str)
    (h : (pyUrlparseFull [] (pyStrip u)).2 = false) :
    normalize_url u = pyStrip u := by
  simp [normalize_url, h]

theorem claim_C8_normalize_total_witness :
    (pyUrlparseFull [] (pyStrip ("http://[::1".toList))).2 = false ∧
    normalize_url ("http://[::1".toList) = pyStrip ("http://[::1".toList) :=
  ⟨by decide, claim_C8_normalize_total _ (by decide)⟩

/-- The truthiness test `if snip:` of the keyword loop (src/app.py line
185): a keyword hits when `find_keyword_snippet` returns a non-empty
snippet. -/
def keywordHit (text kw : Str) : Bool :=
  ((find_keyword_snippet text kw 80).getD []) != []

theorem scanKeywords_first_hit (page_url text : Str) :
    ∀ (keywords : List Str) (kw : Str),
      keywords.find? (keywordHit text) = some kw →
      ∃ snip, scanKeywords page_url text keywords = some ⟨page_url, kw, snip⟩ := by
  intro keywords
  induction keywords with
  | nil => intro kw h; simp at h
  | cons k rest ih =>
    intro kw h
    by_cases hk : keywordHit text k = true
    · rw [List.find?_cons_of_pos _ hk] at h
      injection h with h
      subst h
      have hsnip : ∃ snip, find_keyword_snippet text k 80 = some snip ∧ snip ≠ [] := by
        unfold keywordHit at hk
        cases hopt : find_keyword_snippet text k 80 with
        | none => rw [hopt] at hk; simp at hk
        | some snip =>
          rw [hopt] at hk
          simp only [Option.getD_some, bne_iff_ne, ne_eq] at hk
          exact ⟨snip, rfl, hk⟩
      obtain ⟨snip, hs, hne⟩ := hsnip
      refine ⟨snip, ?_⟩
      rw [scanKeywords, hs]
      simp [hne]
    · rw [List.find?_cons_of_neg _ (by simpa using hk)] at h
      obtain ⟨snip, hsnip⟩ := ih kw h
      refine ⟨snip, ?_⟩
      rw [scanKeywords]
      unfold keywordHit at hk
      cases hopt : find_keyword_snippet text k 80 with
      | none => simpa [hopt] using hsnip
      | some s0 =>
        rw [hopt] at hk
        simp only [Option.getD_some, bne_iff_ne, ne_eq, Bool.not_eq_true,
          decide_eq_false_iff_not, not_not] at hk
        simp [hk, hsnip]

/-- C4: when a reachable page's visible text matches some keyword, the
opportunity's `matched_keyword` is the first keyword in input-list order
whose (truthy) snippet exists — `List.find?` — independent of the
position of later keywords in the text, and no later keyword is
consulted. -/
theorem claim_C4_first_match_wins (f : Fetch) (page_url target_norm : Str)
    (keywords : List Str) (d : Doc) (kw : Str)
    (hf : f page_url = some d) (htext : d.text ≠ [])
    (hlink : target_norm ∉ extract_links d page_url)
    (hfind : keywords.find? (keywordHit (extract_visible_text d)) = some kw) :
    ∃ snip, scan_one_page f page_url target_norm keywords
      = some ⟨page_url, kw, snip⟩ := by
  obtain ⟨snip, hs⟩ := scanKeywords_first_hit page_url (extract_visible_text d) keywords kw hfind
  refine ⟨snip, ?_⟩
  rw [scan_one_page, fetch_text, hf]
  dsimp only
  rw [if_neg htext, if_neg hlink]
  exact hs

/-- Concrete fetch oracle for the C4 witness: one page whose text
contains "trail shoes" before "running shoes". -/
def c4doc : Doc :=
  ⟨"<html>".toList, [], [], [],
    "best trail shoes and best running shoes".toList⟩

def c4fetch : Fetch := fun url =>
  if url = "https://h.com/p".toList then some c4doc else none

theorem claim_C4_first_match_wins_witness :
    c4fetch ("https://h.com/p".toList) = some c4doc ∧
    (List.find? (keywordHit (extract_visible_text c4doc))
      ["running shoes".toList, "trail shoes".toList] = some ("running shoes".toList)) ∧
    ∃ snip, scan_one_page c4fetch ("https://h.com/p".toList)
        ("https://h.com/target".toList)
        ["running shoes".toList, "trail shoes".toList]
      = some ⟨"https://h.com/p".toList, "running shoes".toList, snip⟩ :=
  ⟨by decide, by decide,
    claim_C4_first_match_wins c4fetch _ _ _ c4doc _ (by decide) (by decide) (by decide)
      (by decide)⟩

theorem firstOccurIdx_some {pat : Str} :
    ∀ {t : Str} {i : Nat}, firstOccurIdx pat t = some i → ∃ r, t.drop i = pat ++ r := by
  intro t
  induction t with
  | nil =>
    intro i h
    rw [firstOccurIdx] at h
    split at h
    · injection h with h
      subst h
      obtain ⟨t, ht⟩ := isPrefixOf_eq_true_iff.mp (by assumption)
      exact ⟨t, by simpa using ht⟩
    · cases h
  | cons c rest ih =>
    intro i h
    rw [firstOccurIdx] at h
    split at h
    · injection h with h
      subst h
      obtain ⟨t, ht⟩ := isPrefixOf_eq_true_iff.mp (by assumption)
      exact ⟨t, by simpa using ht⟩
    · cases hx : firstOccurIdx pat rest with
      | none => rw [hx] at h; cases h
      | some j =>
        rw [hx] at h
        injection h with h
        subst h
        simpa using ih hx

/-- Whitespace characters are untouched by ASCII lowercasing. -/
theorem toLower_of_pyWs {c : Char} (h : pyWs c = true) : Char.toLower c = c := by
  simp only [pyWs, Bool.or_eq_true, beq_iff_eq] at h
  rw [Char.toLower, if_neg (by omega)]

/-- `dropWhile` cannot eat into a block whose first character fails the
predicate. -/
theorem dropWhile_keeps_block {p : Char → Bool} {occ b : Str}
    (hocc : occ ≠ []) (hhead : p (occ.headD ' ') = false) :
    ∀ a : Str, ∃ a', (a ++ (occ ++ b)).dropWhile p = a' ++ (occ ++ b) := by
  intro a
  induction a with
  | nil =>
    refine ⟨[], ?_⟩
    cases occ with
    | nil => exact absurd rfl hocc
    | cons o rest =>
      simp only [List.headD_cons] at hhead
      simp [List.dropWhile_cons, hhead]
  | cons x xs ih =>
    obtain ⟨a', ha'⟩ := ih
    by_cases hx : p x = true
    · exact ⟨a', by simpa [List.dropWhile_cons, hx] using ha'⟩
    · exact ⟨x :: xs, by simp [List.dropWhile_cons, hx]⟩

/-- `str.strip()` keeps any whitespace-free non-empty block intact. -/
theorem pyStrip_keeps_block {occ : Str} (hocc : occ ≠ [])
    (hws : ∀ c ∈ occ, pyWs c = false) (a b : Str) :
    ∃ a' b', pyStrip (a ++ (occ ++ b)) = a' ++ (occ ++ b') := by
  have hmemh : occ.headD ' ' ∈ occ := by
    cases occ with
    | nil => exact absurd rfl hocc
    | cons o r => simp
  obtain ⟨a1, ha1⟩ := dropWhile_keeps_block hocc (hws _ hmemh) a
  have hror : occ.reverse ≠ [] := by simpa using hocc
  have hmemr : occ.reverse.headD ' ' ∈ occ := by
    rw [← List.mem_reverse]
    cases ho : occ.reverse with
    | nil => exact absurd ho hror
    | cons x r => simp
  obtain ⟨b1, hb1⟩ := dropWhile_keeps_block hror (hws _ hmemr) b.reverse
  rw [pyStrip, ha1,
    show (a1 ++ (occ ++ b)).reverse = b.reverse ++ (occ.reverse ++ a1.reverse) by simp,
    hb1]
  exact ⟨a1, b1.reverse, by simp⟩

theorem pyStrip_length_le (l : Str) : (pyStrip l).length ≤ l.length := by
  rw [pyStrip]
  have h1 := (List.dropWhile_sublist (l := l) pyWs).length_le
  have h2 := (List.dropWhile_sublist (l := (l.dropWhile pyWs).reverse) pyWs).length_le
  simp only [List.length_reverse] at h2 ⊢
  omega

/-- C5: whenever `find_keyword_snippet` on keyword "shoes" produces a
snippet, the snippet contains the text's matched occurrence verbatim
(case preserved, an infix of both snippet and text, lowercasing to
"shoes"), and the snippet length is at most
`2*window + len(keyword) + 2*len("… ")` = 169. -/
theorem claim_C5_snippet (text s : Str)
    (h : find_keyword_snippet text ("shoes".toList) 80 = some s) :
    (∃ occ pre post a b, lowerStr occ = "shoes".toList ∧
      text = pre ++ (occ ++ post) ∧ s = a ++ (occ ++ b)) ∧
    s.length ≤ 2 * 80 + ("shoes".toList).length + 2 * ("… ".toList).length := by
  rw [find_keyword_snippet, if_neg (by decide)] at h
  cases hidx : firstOccurIdx (lowerStr ("shoes".toList)) (lowerStr text) with
  | none => rw [hidx] at h; cases h
  | some i =>
    rw [hidx] at h
    dsimp only at h
    injection h with h
    obtain ⟨r, hr⟩ := firstOccurIdx_some hidx
    have hrlen := congrArg List.length hr
    simp only [List.length_drop, List.length_append, lowerStr, List.length_map] at hrlen
    have hpatlen : (List.map Char.toLower ("shoes".toList)).length = 5 := by decide
    rw [show ("shoes".toList).length = 5 from by decide] at hrlen
    have hilen : i + 5 ≤ text.length := by omega
    set start := i - 80 with hstartdef
    set stop := min text.length (i + ("shoes".toList).length + 80) with hstopdef
    have hshoeslen : ("shoes".toList).length = 5 := by decide
    have hstartle : start ≤ i := by omega
    have hstople : i + 5 ≤ stop := by rw [hstopdef, hshoeslen]; omega
    have hstoplen : stop ≤ text.length := by rw [hstopdef]; omega
    set occ := (text.drop i).take 5 with hoccdef
    have hocclen : occ.length = 5 := by
      rw [hoccdef, List.length_take, List.length_drop]; omega
    have hoccne : occ ≠ [] := by
      intro hne; rw [hne] at hocclen; simp at hocclen
    have hocclower : lowerStr occ = "shoes".toList := by
      rw [hoccdef, lowerStr, List.map_take, List.map_drop]
      rw [show List.map Char.toLower text = lowerStr text from rfl, hr]
      rw [List.take_left' (show (lowerStr ("shoes".toList)).length = 5 from by decide)]
      decide
    have htextdec : text = text.take i ++ (occ ++ text.drop (5 + i)) := by
      rw [hoccdef]
      rw [List.drop_take_append_drop']
      exact (List.take_append_drop i text).symm
    -- slice decomposition
    have hP : text.drop start = (text.drop start).take (i - start) ++ text.drop i := by
      have := List.drop_take_append_drop' text start (i - start)
      rw [show i - start + start = i by omega] at this
      exact this.symm
    have hPlen : ((text.drop start).take (i - start)).length = i - start := by
      rw [List.length_take, List.length_drop]; omega
    have hslice : (text.drop start).take (stop - start)
        = (text.drop start).take (i - start) ++
          (occ ++ (text.drop (5 + i)).take (stop - i - 5)) := by
      conv_lhs => rw [hP]
      rw [List.take_append_eq_append_take, List.take_of_length_le (by omega), hPlen]
      congr 1
      rw [show text.drop i = occ ++ text.drop (5 + i) by
        rw [hoccdef, List.drop_take_append_drop']]
      rw [List.take_append_eq_append_take, List.take_of_length_le (by omega), hocclen]
      rw [show stop - start - (i - start) = stop - i by omega,
        show stop - i - 5 = stop - i - 5 from rfl]
    have hws : ∀ c ∈ occ, pyWs c = false := by
      intro c hc
      by_contra hcon
      have hcon' : pyWs c = true := by
        cases hpc : pyWs c with
        | false => exact absurd hpc hcon
        | true => rfl
      have hmem : Char.toLower c ∈ lowerStr occ := List.mem_map_of_mem _ hc
      rw [hocclower, toLower_of_pyWs hcon'] at hmem
      have : c = 's' ∨ c = 'h' ∨ c = 'o' ∨ c = 'e' ∨ c = 's' := by
        simpa using hmem
      rcases this with rfl | rfl | rfl | rfl | rfl <;> exact absurd hcon' (by decide)
    obtain ⟨a1, b1, hstrip⟩ := pyStrip_keeps_block hoccne hws
      ((text.drop start).take (i - start)) ((text.drop (5 + i)).take (stop - i - 5))
    rw [hslice] at h
    have hsliceLen : ((text.drop start).take (i - start) ++
        (occ ++ (text.drop (5 + i)).take (stop - i - 5))).length ≤ 165 := by
      rw [← hslice, List.length_take, List.length_drop]
      rw [hstopdef, hshoeslen]
      omega
    have hstriplen : (pyStrip ((text.drop start).take (i - start) ++
        (occ ++ (text.drop (5 + i)).take (stop - i - 5)))).length ≤ 165 :=
      le_trans (pyStrip_length_le _) hsliceLen
    constructor
    · refine ⟨occ, text.take i, text.drop (5 + i), ?_⟩
      rw [← h]
      by_cases h1 : 0 < start <;> by_cases h2 : stop < text.length
      · exact ⟨"… ".toList ++ a1, b1 ++ " …".toList,
          hocclower, htextdec, by rw [if_pos h1, if_pos h2, hstrip]; simp⟩
      · exact ⟨"… ".toList ++ a1, b1,
          hocclower, htextdec, by rw [if_pos h1, if_neg h2, hstrip]; simp⟩
      · exact ⟨a1, b1 ++ " …".toList,
          hocclower, htextdec, by rw [if_neg h1, if_pos h2, hstrip]; simp⟩
      · exact ⟨a1, b1, hocclower, htextdec, by rw [if_neg h1, if_neg h2, hstrip]⟩
    · rw [← h]
      have hm1 : ("… ".toList).length = 2 := by decide
      have hm2 : (" …".toList).length = 2 := by decide
      rw [hshoeslen]
      by_cases h1 : 0 < start <;> by_cases h2 : stop < text.length <;>
        simp only [if_pos, if_neg, h1, h2, if_true, if_false, List.length_append, hm1, hm2]
      all_goals omega

theorem claim_C5_snippet_witness :
    (∃ occ pre post a b, lowerStr occ = "shoes".toList ∧
      "running Shoes here".toList = pre ++ (occ ++ post) ∧
      "running Shoes here".toList = a ++ (occ ++ b)) ∧
    ("running Shoes here".toList).length ≤ 2 * 80 + ("shoes".toList).length +
      2 * ("… ".toList).length :=
  claim_C5_snippet ("running Shoes here".toList) ("running Shoes here".toList) (by decide)

theorem scanKeywords_source (page_url text : Str) :
    ∀ (keywords : List Str) (o : Opportunity),
      scanKeywords page_url text keywords = some o → o.source_url = page_url := by
  intro keywords
  induction keywords with
  | nil => intro o h; rw [scanKeywords] at h; cases h
  | cons k rest ih =>
    intro o h
    rw [scanKeywords] at h
    cases hopt : find_keyword_snippet text k 80 with
    | none => rw [hopt] at h; exact ih o h
    | some snip =>
      rw [hopt] at h
      dsimp only at h
      split at h
      · injection h with h; subst h; rfl
      · exact ih o h

theorem scan_one_page_source (f : Fetch) (page_url tgt : Str) (kws : List Str)
    (o : Opportunity) (h : scan_one_page f page_url tgt kws = some o) :
    o.source_url = page_url := by
  rw [scan_one_page] at h
  cases hf : fetch_text f page_url with
  | none => rw [hf] at h; cases h
  | some d =>
    rw [hf] at h
    dsimp only at h
    split at h
    · cases h
    · split at h
      · cases h
      · exact scanKeywords_source _ _ _ _ h

/-- C1: a scanned page containing an anchor that resolves (after
normalization) to the normalized target is never an opportunity:
`scan_one_page` returns `None` for it under any keyword list, and no
opportunity of any `run_scan` result over the same oracle carries that
page as its source URL. -/
theorem claim_C1_linked_page_skipped (f : Fetch) (page_url tgt_norm href : Str) (d : Doc)
    (hf : f page_url = some d)
    (hmem : href ∈ d.anchors)
    (hne : pyStrip href ≠ [])
    (hres : normalize_url (urljoin page_url (pyStrip href)) = tgt_norm) :
    (∀ keywords, scan_one_page f page_url tgt_norm keywords = none) ∧
    (∀ sitemap_url target_url csv mp conc sho r,
      run_scan f sitemap_url target_url csv mp conc sho = .ok r →
      normalize_url target_url = tgt_norm →
      ∀ o ∈ r.opportunities, o.source_url ≠ page_url) := by
  have hlink : tgt_norm ∈ extract_links d page_url := by
    rw [extract_links, ← hres]
    refine List.mem_map_of_mem _ ?_
    rw [List.mem_filter]
    exact ⟨List.mem_map_of_mem _ hmem, by simpa using hne⟩
  have hnone : ∀ keywords, scan_one_page f page_url tgt_norm keywords = none := by
    intro keywords
    rw [scan_one_page, fetch_text, hf]
    dsimp only
    by_cases htext : d.text = []
    · rw [if_pos htext]
    · rw [if_neg htext, if_pos hlink]
  refine ⟨hnone, ?_⟩
  intro sitemap_url target_url csv mp conc sho r hok htgt o ho
  rw [run_scan] at hok
  split at hok
  · cases hok
  · injection hok with hok
    subst hok
    dsimp only at ho
    obtain ⟨u, hu, hscan⟩ := List.mem_filterMap.mp ho
    intro hsrc
    rw [scan_one_page_source f u _ _ o hscan] at hsrc
    subst hsrc
    rw [htgt] at hscan
    rw [hnone] at hscan
    cases hscan

/-- Concrete data for the C1 witness: the page links to the target. -/
def c1doc : Doc :=
  ⟨"<html>".toList, [], [], ["https://h.com/target".toList],
    "mentions widget".toList⟩

def c1fetch : Fetch := fun url =>
  if url = "https://h.com/p".toList then some c1doc else none

theorem claim_C1_linked_page_skipped_witness :
    c1fetch ("https://h.com/p".toList) = some c1doc ∧
    ("https://h.com/target".toList) ∈ c1doc.anchors ∧
    normalize_url (urljoin ("https://h.com/p".toList)
        (pyStrip ("https://h.com/target".toList)))
      = normalize_url ("https://h.com/target".toList) ∧
    (∀ keywords, scan_one_page c1fetch ("https://h.com/p".toList)
      (normalize_url ("https://h.com/target".toList)) keywords = none) ∧
    (∀ sitemap_url target_url csv mp conc sho r,
      run_scan c1fetch sitemap_url target_url csv mp conc sho = .ok r →
      normalize_url target_url = normalize_url ("https://h.com/target".toList) →
      ∀ o ∈ r.opportunities, o.source_url ≠ "https://h.com/p".toList) := by
  refine ⟨by decide, by decide, by decide, ?_⟩
  exact claim_C1_linked_page_skipped c1fetch ("https://h.com/p".toList)
    (normalize_url ("https://h.com/target".toList)) ("https://h.com/target".toList)
    c1doc (by decide) (by decide) (by decide) (by decide)

/-- C6: a successful scan reports `scanned_pages` equal to the length of
the resolved page list after the same-host filter and the `max_pages`
truncation, for every fetch oracle — in particular independent of how
many page fetches fail or yield no opportunity. -/
theorem claim_C6_scanned_pages (f : Fetch) (sitemap_url target_url csv : Str)
    (mp conc : Nat) (sho : Bool) (r : ScanResult)
    (hok : run_scan f sitemap_url target_url csv mp conc sho = .ok r) :
    r.scanned_pages = (resolvedPages f sitemap_url sho mp).length := by
  rw [run_scan] at hok
  split at hok
  · cases hok
  · injection hok with hok
    subst hok
    rfl

/-- Concrete data for the C6 witness: two resolved pages, one fetch
fails, the other has no keyword match — `scanned_pages` is still 2. -/
def c6doc : Doc :=
  ⟨"<xml>".toList, [],
    ["https://e.com/a".toList, "https://e.com/b".toList], [], []⟩

def c6page : Doc := ⟨"<html>".toList, [], [], [], "nothing relevant".toList⟩

def c6fetch : Fetch := fun url =>
  if url = "https://e.com/sm.xml".toList then some c6doc
  else if url = "https://e.com/a".toList then some c6page
  else none

theorem claim_C6_scanned_pages_witness :
    run_scan c6fetch ("https://e.com/sm.xml".toList) ("https://e.com/t".toList)
        ("widget".toList) 200 10 true
      = .ok ⟨"https://e.com/sm.xml".toList, "https://e.com/t".toList,
          ["widget".toList], 2, []⟩ ∧
    (2 : Nat) = (resolvedPages c6fetch ("https://e.com/sm.xml".toList) true 200).length := by
  have hc : collect_urls_from_sitemap c6fetch ("https://e.com/sm.xml".toList) 25 5000
      = ["https://e.com/a".toList, "https://e.com/b".toList] := by
    simp [collect_urls_from_sitemap, collectLoop, c6fetch, c6doc, parse_sitemap_xml,
      uniq, uniqGo, appendUpTo, enqueueChildren]
  have hok : run_scan c6fetch ("https://e.com/sm.xml".toList) ("https://e.com/t".toList)
      ("widget".toList) 200 10 true
      = .ok ⟨"https://e.com/sm.xml".toList, "https://e.com/t".toList,
          ["widget".toList], 2, []⟩ := by
    simp only [run_scan, resolvedPages, hc]
    decide
  refine ⟨hok, ?_⟩
  exact claim_C6_scanned_pages c6fetch _ _ _ 200 10 true _ hok

/-- C7: when the keyword CSV parses to an empty list, the scan returns
the structured error payload before any resolution or page work: the
result is the error message and is independent of the fetch oracle (no
fetch can influence it, i.e. none is performed). -/
theorem claim_C7_empty_keywords (f g : Fetch) (sitemap_url target_url csv : Str)
    (mp conc : Nat) (sho : Bool) (h : parseKeywords csv = []) :
    run_scan f sitemap_url target_url csv mp conc sho
      = .error ("Provide at least one keyword.".toList) ∧
    run_scan f sitemap_url target_url csv mp conc sho
      = run_scan g sitemap_url target_url csv mp conc sho := by
  constructor
  · rw [run_scan, if_pos h]
  · rw [run_scan, if_pos h, run_scan, if_pos h]

theorem claim_C7_empty_keywords_witness :
    parseKeywords (" , ,".toList) = [] ∧
    run_scan (fun _ => none) ("https://e.com/s.xml".toList) ("https://e.com/t".toList)
        (" , ,".toList) 200 10 true
      = .error ("Provide at least one keyword.".toList) ∧
    run_scan (fun _ => none) ("https://e.com/s.xml".toList) ("https://e.com/t".toList)
        (" , ,".toList) 200 10 true
      = run_scan (fun _ => some c6page) ("https://e.com/s.xml".toList)
          ("https://e.com/t".toList) (" , ,".toList) 200 10 true :=
  ⟨by decide, claim_C7_empty_keywords (fun _ => none) (fun _ => some c6page) _ _ _ 200 10
    true (by decide)⟩

/-- Two fetch oracles that agree except possibly at falsy results
(`None` or an empty body — both skipped by `if not xml`) drive the BFS
loop identically. -/
theorem collectLoop_congr (f g : Fetch)
    (hfg : ∀ v, f v = g v ∨
      ((f v = none ∨ ∃ d, f v = some d ∧ d.text = []) ∧
       (g v = none ∨ ∃ d, g v = some d ∧ d.text = []))) :
    ∀ maxS maxU queue seen urls,
      collectLoop f maxS maxU queue seen urls
        = collectLoop g maxS maxU queue seen urls := by
  intro maxS maxU queue seen urls
  induction queue, seen, urls using collectLoop.induct f maxS maxU with
  | case1 seen urls => rw [collectLoop, collectLoop]
  | case2 sm rest seen urls hG hmem ih =>
    rw [collectLoop, collectLoop, dif_pos hG, dif_pos hG, if_pos hmem, if_pos hmem, ih]
  | case3 sm rest seen urls hG hmem hfsm ih =>
    have hg : g sm = none ∨ ∃ d0, g sm = some d0 ∧ d0.text = [] := by
      rcases hfg sm with h | ⟨-, hg1⟩
      · left; rw [← h, hfsm]
      · exact hg1
    rw [collectLoop, collectLoop, dif_pos hG, dif_pos hG, if_neg hmem, if_neg hmem, hfsm]
    dsimp only
    rcases hg with hg | ⟨d0, hg, hd0⟩
    · rw [hg]; exact ih
    · rw [hg]
      dsimp only
      rw [if_pos hd0]
      exact ih
  | case4 sm rest seen urls hG hmem d1 hfsm hd1 ih =>
    have hg : g sm = none ∨ ∃ d0, g sm = some d0 ∧ d0.text = [] := by
      rcases hfg sm with h | ⟨-, hg1⟩
      · right; exact ⟨d1, by rw [← h, hfsm], hd1⟩
      · exact hg1
    rw [collectLoop, collectLoop, dif_pos hG, dif_pos hG, if_neg hmem, if_neg hmem, hfsm]
    dsimp only
    rw [if_pos hd1]
    rcases hg with hg | ⟨d0, hg, hd0⟩
    · rw [hg]; exact ih
    · rw [hg]
      dsimp only
      rw [if_pos hd0]
      exact ih
  | case5 sm rest seen urls hG hmem d1 hfsm hd1 ps ih =>
    have hg : g sm = some d1 := by
      rcases hfg sm with h | ⟨hf1, -⟩
      · rw [← h, hfsm]
      · rcases hf1 with hf1 | ⟨d2, hf1, hd2⟩
        · rw [hfsm] at hf1; cases hf1
        · rw [hfsm] at hf1
          injection hf1 with hf1
          subst hf1
          exact absurd hd2 hd1
    rw [collectLoop, collectLoop, dif_pos hG, dif_pos hG, if_neg hmem, if_neg hmem,
      hfsm, hg]
    dsimp only
    rw [if_neg hd1, if_neg hd1]
    exact ih
  | case6 sm rest seen urls hG =>
    rw [collectLoop, collectLoop, dif_neg hG, dif_neg hG]

/-- C10: a 200-status fetch with an empty body behaves exactly like a
failed fetch — `scan_one_page` returns `None` for that page (no link or
keyword analysis can occur, since it behaves identically to the
`None`-returning oracle), the BFS loop run is unchanged if the oracle is
replaced by one failing on that URL (the sitemap still being marked
visited in both runs), and so is the collected URL list. -/
theorem claim_C10_empty_body (f : Fetch) (u : Str) (d : Doc)
    (hf : f u = some d) (hd : d.text = []) :
    (∀ tgt kws, scan_one_page f u tgt kws = none) ∧
    (∀ tgt kws, scan_one_page f u tgt kws
      = scan_one_page (fun v => if v = u then none else f v) u tgt kws) ∧
    (∀ maxS maxU queue seen urls,
      collectLoop f maxS maxU queue seen urls
        = collectLoop (fun v => if v = u then none else f v) maxS maxU queue seen urls) ∧
    (∀ root maxS maxU,
      collect_urls_from_sitemap f root maxS maxU
        = collect_urls_from_sitemap (fun v => if v = u then none else f v) root maxS
            maxU) := by
  have hscan : ∀ tgt kws, scan_one_page f u tgt kws = none := by
    intro tgt kws
    rw [scan_one_page, fetch_text, hf]
    dsimp only
    rw [if_pos hd]
  have hloop := collectLoop_congr f (fun v => if v = u then none else f v) (by
    intro v
    by_cases hv : v = u
    · subst hv
      right
      exact ⟨Or.inr ⟨d, hf, hd⟩, Or.inl (by simp)⟩
    · left
      simp [hv])
  refine ⟨hscan, ?_, hloop, ?_⟩
  · intro tgt kws
    rw [hscan, scan_one_page, fetch_text]
    rw [show (if u = u then none else f u) = none by rw [if_pos rfl]]
  · intro root maxS maxU
    rw [collect_urls_from_sitemap, collect_urls_from_sitemap, hloop]

/-- Concrete data for the C10 witness: a 200 response with empty body. -/
def c10doc : Doc := ⟨[], [], ["https://e.com/x".toList], [], "widget".toList⟩

def c10fetch : Fetch := fun url =>
  if url = "https://e.com/page".toList then some c10doc else none

theorem claim_C10_empty_body_witness :
    c10fetch ("https://e.com/page".toList) = some c10doc ∧ c10doc.text = [] ∧
    (∀ tgt kws, scan_one_page c10fetch ("https://e.com/page".toList) tgt kws = none) ∧
    (∀ root maxS maxU,
      collect_urls_from_sitemap c10fetch root maxS maxU
        = collect_urls_from_sitemap
            (fun v => if v = "https://e.com/page".toList then none else c10fetch v)
            root maxS maxU) := by
  refine ⟨by decide, by decide, ?_, ?_⟩
  · exact (claim_C10_empty_body c10fetch _ c10doc (by decide) (by decide)).1
  · exact (claim_C10_empty_body c10fetch _ c10doc (by decide) (by decide)).2.2.2

/-! ### The concurrency gate (spec §4.4 step 6, §5)

Modelled from the spec: the page-scan fan-out of `run_scan` guards each
`scan_one_page` call with `asyncio.Semaphore(concurrency)`
(src/app.py lines 212-221) — a counting admission gate.  The pure model
of `run_scan` cannot observe scheduling, so the gate is modelled as a
transition system over the per-page task phases: a pending task may
enter flight only while fewer than `concurrency` tasks are in flight;
an in-flight task may complete. -/

inductive Phase where
  | pending
  | inflight
  | done
deriving DecidableEq

def isInflight : Phase → Bool
  | .inflight => true
  | _ => false

/-- The number of simultaneously in-flight fetch-and-analyze tasks. -/
def inflightCount (ts : List Phase) : Nat := (ts.filter isInflight).length

/-- One scheduler step of the semaphore-gated fan-out. -/
inductive SemStep (n : Nat) : List Phase → List Phase → Prop
  | acquire (l r : List Phase) :
      inflightCount (l ++ Phase.pending :: r) < n →
      SemStep n (l ++ Phase.pending :: r) (l ++ Phase.inflight :: r)
  | release (l r : List Phase) :
      SemStep n (l ++ Phase.inflight :: r) (l ++ Phase.done :: r)

theorem inflightCount_append (a b : List Phase) :
    inflightCount (a ++ b) = inflightCount a + inflightCount b := by
  simp [inflightCount, List.filter_append]

theorem semStep_inflight_le {n : Nat} {s t : List Phase} (h : SemStep n s t)
    (hs : inflightCount s ≤ n) : inflightCount t ≤ n := by
  cases h with
  | acquire l r hlt =>
    rw [inflightCount_append] at hlt ⊢
    simp only [inflightCount, List.filter_cons, isInflight] at hlt ⊢
    simp at hlt ⊢
    omega
  | release l r =>
    rw [inflightCount_append] at hs ⊢
    simp only [inflightCount, List.filter_cons, isInflight] at hs ⊢
    simp at hs ⊢
    omega

/-- C9: along any schedule of the page-scan phase — any `SemStep`-trace
from the all-pending state over the pages `run_scan` resolves
(`resolvedPages`) — the number of simultaneously in-flight
fetch-and-analyze tasks never exceeds `concurrency`. -/
theorem claim_C9_concurrency_bound (f : Fetch) (sitemap_url : Str) (sho : Bool)
    (max_pages concurrency : Nat) (s : List Phase)
    (h : Relation.ReflTransGen (SemStep concurrency)
      (List.replicate (resolvedPages f sitemap_url sho max_pages).length Phase.pending)
      s) :
    inflightCount s ≤ concurrency := by
  induction h with
  | refl =>
    simp [inflightCount, List.filter_eq_nil_iff, isInflight]
  | tail _ hstep ih => exact semStep_inflight_le hstep ih

def c9doc : Doc :=
  ⟨"<xml>".toList, [],
    ["https://e.com/a".toList, "https://e.com/b".toList], [], []⟩

def c9fetch : Fetch := fun url =>
  if url = "https://e.com/sm.xml".toList then some c9doc else none

theorem claim_C9_concurrency_bound_witness :
    Relation.ReflTransGen (SemStep 5)
      (List.replicate
        (resolvedPages c9fetch ("https://e.com/sm.xml".toList) true 200).length
        Phase.pending)
      [Phase.inflight, Phase.pending] ∧
    inflightCount [Phase.inflight, Phase.pending] ≤ 5 := by
  have hk : (resolvedPages c9fetch ("https://e.com/sm.xml".toList) true 200).length
      = 2 := by
    have hc : collect_urls_from_sitemap c9fetch ("https://e.com/sm.xml".toList) 25 5000
        = ["https://e.com/a".toList, "https://e.com/b".toList] := by
      simp [collect_urls_from_sitemap, collectLoop, c9fetch, c9doc, parse_sitemap_xml,
        uniq, uniqGo, appendUpTo, enqueueChildren]
    simp only [resolvedPages, hc]
    decide
  have htrace : Relation.ReflTransGen (SemStep 5)
      (List.replicate
        (resolvedPages c9fetch ("https://e.com/sm.xml".toList) true 200).length
        Phase.pending)
      [Phase.inflight, Phase.pending] := by
    rw [hk]
    exact Relation.ReflTransGen.single
      (SemStep.acquire [] [Phase.pending] (by decide))
  exact ⟨htrace,
    claim_C9_concurrency_bound c9fetch ("https://e.com/sm.xml".toList) true 200 5
      [Phase.inflight, Phase.pending] htrace⟩

/-! ### Idempotence of `normalize_url` (claim C3, amended)

`normalize_url` is not idempotent in general (`claim_C3_counterexample`);
the rest of this development isolates the stability conditions under
which a second application is the identity and proves the amended claim. -/

theorem toNat_ofNat_valid {n : Nat} (h : n < 0xD800) : (Char.ofNat n).toNat = n := by
  have hv : Nat.isValidChar n := Or.inl h
  simp only [Char.ofNat, dif_pos hv, Char.ofNatAux, Char.toNat, UInt32.toNat]
  rfl

theorem toLower_toNat (c : Char) :
    (Char.toLower c).toNat =
      if 65 ≤ c.toNat ∧ c.toNat ≤ 90 then c.toNat + 32 else c.toNat := by
  rw [Char.toLower]
  by_cases h : 65 ≤ c.toNat ∧ c.toNat ≤ 90
  · rw [if_pos ⟨h.1, h.2⟩, if_pos h, toNat_ofNat_valid (by omega)]
  · rw [if_neg (fun hc => h ⟨hc.1, hc.2⟩), if_neg h]

/-- Either lowercasing fixes `c` (a non-uppercase character), or it maps
an uppercase letter into `[97,122]`. -/
theorem toLower_cases (c : Char) :
    ((Char.toLower c).toNat = c.toNat ∧ ¬(65 ≤ c.toNat ∧ c.toNat ≤ 90)) ∨
      (97 ≤ (Char.toLower c).toNat ∧ (Char.toLower c).toNat ≤ 122 ∧
        65 ≤ c.toNat ∧ c.toNat ≤ 90) := by
  have ht := toLower_toNat c
  split at ht
  · rename_i h; right; omega
  · rename_i h; left; exact ⟨ht, h⟩

theorem toLower_idem (c : Char) : Char.toLower (Char.toLower c) = Char.toLower c := by
  rw [char_eq_iff_toNat, toLower_toNat (Char.toLower c)]
  rcases toLower_cases c with ⟨h1, h2⟩ | h <;> rw [if_neg (by omega)]

theorem lowerStr_idem (l : Str) : lowerStr (lowerStr l) = lowerStr l := by
  simp only [lowerStr, List.map_map]
  exact List.map_congr_left (fun c _ => toLower_idem c)

theorem isSchemeChar_toLower {c : Char} (h : isSchemeChar c = true) :
    isSchemeChar (Char.toLower c) = true := by
  rcases toLower_cases c with hc | hc <;>
    simp only [isSchemeChar, isAsciiAlpha, isAsciiDigit, Bool.or_eq_true,
      Bool.and_eq_true, decide_eq_true_eq, beq_iff_eq] at h ⊢ <;> omega

theorem isAsciiAlpha_toLower {c : Char} (h : isAsciiAlpha c = true) :
    isAsciiAlpha (Char.toLower c) = true := by
  rcases toLower_cases c with hc | hc <;>
    simp only [isAsciiAlpha, Bool.or_eq_true, Bool.and_eq_true,
      decide_eq_true_eq] at h ⊢ <;> omega

theorem notDelim_toLower {c : Char} (h : notDelim c = true) :
    notDelim (Char.toLower c) = true := by
  rcases toLower_cases c with hc | hc <;>
    simp only [notDelim, Bool.or_eq_true, Bool.not_eq_true', Bool.or_eq_false_iff,
      beq_eq_false_iff_ne, ne_eq] at h ⊢ <;> omega

theorem isUnsafeUrlChar_toLower (c : Char) :
    isUnsafeUrlChar (Char.toLower c) = isUnsafeUrlChar c := by
  rw [Bool.eq_iff_iff]
  simp only [isUnsafeUrlChar, Bool.or_eq_true, beq_iff_eq]
  rcases toLower_cases c with ⟨h1, h2⟩ | h <;> (constructor <;> intro hx <;> omega)

/-- Membership of a non-letter character is invariant under lowercasing. -/
theorem mem_lowerStr_iff {d : Char}
    (hd : d.toNat < 65 ∨ (90 < d.toNat ∧ d.toNat < 97) ∨ 122 < d.toNat)
    (l : Str) : d ∈ lowerStr l ↔ d ∈ l := by
  simp only [lowerStr, List.mem_map]
  constructor
  · rintro ⟨c, hc, hcd⟩
    subst hcd
    rcases toLower_cases c with ⟨h1, h2⟩ | h
    · rwa [char_eq_iff_toNat.mpr h1]
    · exfalso; omega
  · intro hm
    refine ⟨d, hm, ?_⟩
    rw [char_eq_iff_toNat, toLower_toNat]
    rw [if_neg (by omega)]

theorem contains_lowerStr_nonletter {d : Char}
    (hd : d.toNat < 65 ∨ (90 < d.toNat ∧ d.toNat < 97) ∨ 122 < d.toNat)
    (l : Str) : (lowerStr l).contains d = l.contains d := by
  rw [Bool.eq_iff_iff,
    show ((lowerStr l).contains d = true) ↔ d ∈ lowerStr l from List.elem_iff,
    show (l.contains d = true) ↔ d ∈ l from List.elem_iff]
  exact mem_lowerStr_iff hd l

theorem splitAtFirst?_of_not_mem {ch : Char} {l : Str} (h : ch ∉ l) :
    splitAtFirst? ch l = (l, none) := by
  induction l with
  | nil => rfl
  | cons c rest ih =>
    have hne : ¬(c = ch) := by
      intro hc; subst hc; exact h (List.mem_cons_self _ _)
    simp only [splitAtFirst?, List.append_eq]
    rw [if_neg hne, ih (fun hm => h (List.mem_cons_of_mem _ hm))]

theorem splitAtFirst?_append {ch : Char} {a : Str} (h : ch ∉ a) (b : Str) :
    splitAtFirst? ch (a ++ ch :: b) = (a, some b) := by
  induction a with
  | nil => simp [splitAtFirst?]
  | cons c rest ih =>
    have hne : ¬(c = ch) := by
      intro hc; subst hc; exact h (List.mem_cons_self _ _)
    simp only [List.cons_append, splitAtFirst?, List.append_eq]
    rw [if_neg hne, ih (fun hm => h (List.mem_cons_of_mem _ hm))]

theorem splitAtFirst?_fst_subset (ch : Char) : ∀ l : Str, (splitAtFirst? ch l).1 ⊆ l := by
  intro l
  induction l with
  | nil => simp [splitAtFirst?]
  | cons c rest ih =>
    simp only [splitAtFirst?]
    split
    · simp
    · intro x hx
      rcases List.mem_cons.mp hx with hx | hx
      · exact hx ▸ List.mem_cons_self c rest
      · exact List.mem_cons_of_mem _ (ih hx)

theorem splitAtFirst?_fst_not_mem (ch : Char) : ∀ l : Str, ch ∉ (splitAtFirst? ch l).1 := by
  intro l
  induction l with
  | nil => simp [splitAtFirst?]
  | cons c rest ih =>
    simp only [splitAtFirst?]
    split
    · simp
    · rename_i hne
      intro hx
      rcases List.mem_cons.mp hx with hx | hx
      · exact hne hx.symm
      · exact ih hx

theorem splitAtFirst?_snd_subset {ch : Char} :
    ∀ {l b : Str}, (splitAtFirst? ch l).2 = some b → b ⊆ l := by
  intro l
  induction l with
  | nil => intro b h; simp [splitAtFirst?] at h
  | cons c rest ih =>
    intro b h
    simp only [splitAtFirst?] at h
    split at h
    · simp only [Option.some.injEq] at h
      exact h ▸ List.subset_cons_of_subset c (List.Subset.refl rest)
    · exact List.subset_cons_of_subset c (ih h)

/-- `takeWhile`/`dropWhile` over `a ++ b` when every element of `a`
satisfies the predicate and the head of the non-empty `b` does not. -/
theorem takeWhile_append_block {q : Char → Bool} {a b : Str}
    (ha : ∀ c ∈ a, q c = true) (hbne : b ≠ []) (hb : q (b.headD ' ') = false) :
    (a ++ b).takeWhile q = a ∧ (a ++ b).dropWhile q = b := by
  induction a with
  | nil =>
    cases b with
    | nil => exact absurd rfl hbne
    | cons x xs =>
      simp only [List.headD_cons] at hb
      simp [List.takeWhile_cons, List.dropWhile_cons, hb]
  | cons c rest ih =>
    have hc : q c = true := ha c (List.mem_cons_self c rest)
    obtain ⟨h1, h2⟩ := ih (fun x hx => ha x (List.mem_cons_of_mem _ hx))
    constructor
    · simp [List.takeWhile_cons, hc, h1]
    · simp [List.dropWhile_cons, hc, h2]

theorem getLastD_append_right {a b : Str} (hb : b ≠ []) (d : Char) :
    (a ++ b).getLastD d = b.getLastD d := by
  rw [List.getLastD_eq_getLast?, List.getLastD_eq_getLast?, List.getLast?_append]
  cases hl : b.getLast? with
  | none => exact absurd (List.getLast?_eq_none_iff.mp hl) hb
  | some x => rfl

theorem findIdx?_colon_append {s : Str} (h : ':' ∉ s) (rest : Str) :
    (s ++ ':' :: rest).findIdx? (fun c => c == ':') = some s.length := by
  rw [List.findIdx?_append]
  have h1 : s.findIdx? (fun c => c == ':') = none := by
    rw [List.findIdx?_eq_none_iff]
    intro x hx
    simp only [beq_eq_false_iff_ne, ne_eq]
    exact fun he => h (he ▸ hx)
  rw [h1]
  simp [List.findIdx?_cons]

theorem drop_len_succ_append (s : Str) (c : Char) (rest : Str) :
    (s ++ c :: rest).drop (s.length + 1) = rest := by
  rw [show s ++ c :: rest = (s ++ [c]) ++ rest by simp]
  exact List.drop_left' (by simp)

/-- Every character emitted by `quote_plus` is a safe character, `'+'`,
`'%'`, or an uppercase-hex digit. -/
theorem quote_plus_charset {s : Str} :
    ∀ c ∈ quote_plus s, safeChar c = true ∨ c = '+' ∨ c = '%' ∨ isHexDigit c = true := by
  intro c hc
  rw [quote_plus] at hc
  obtain ⟨x, hx, hcx⟩ := List.mem_flatMap.mp hc
  by_cases hsp : x = ' '
  · rw [if_pos hsp] at hcx
    simp only [List.mem_singleton] at hcx
    subst hcx; right; left; rfl
  · rw [if_neg hsp, quoteChar] at hcx
    by_cases hsafe : safeChar x = true
    · rw [if_pos hsafe] at hcx
      simp only [List.mem_singleton] at hcx
      subst hcx; left; exact hsafe
    · rw [if_neg hsafe] at hcx
      obtain ⟨b, hb, hcb⟩ := List.mem_flatMap.mp hcx
      have hval : x.toNat < 0x110000 := by
        rcases char_valid_nat x with h | h <;> omega
      have hblt : b < 256 := utf8EncodeNat_bound hval b hb
      rcases List.mem_cons.mp hcb with hcb | hcb
      · subst hcb; right; right; left; rfl
      · rw [toHex2] at hcb
        obtain ⟨hh1, -, -, -⟩ := hexDigits_spec (b / 16) (by omega)
        obtain ⟨hh2, -, -, -⟩ := hexDigits_spec (b % 16) (by omega)
        rcases List.mem_cons.mp hcb with hcb | hcb
        · subst hcb; right; right; right; exact hh1
        · simp only [List.mem_singleton] at hcb
          subst hcb; right; right; right; exact hh2

/-- Numeric form of the `quote_plus` output character set. -/
theorem quote_plus_toNat {s : Str} {c : Char} (hc : c ∈ quote_plus s) :
    (48 ≤ c.toNat ∧ c.toNat ≤ 57) ∨ (65 ≤ c.toNat ∧ c.toNat ≤ 90) ∨
    (97 ≤ c.toNat ∧ c.toNat ≤ 122) ∨ c.toNat = 95 ∨ c.toNat = 46 ∨ c.toNat = 45 ∨
    c.toNat = 126 ∨ c.toNat = 43 ∨ c.toNat = 37 := by
  rcases quote_plus_charset c hc with h | h | h | h
  · have := safeChar_toNat h; tauto
  · subst h; decide
  · subst h; decide
  · simp only [isHexDigit, Bool.or_eq_true, Bool.and_eq_true, decide_eq_true_eq] at h
    omega

theorem quote_plus_not_amp (s : Str) : ('&' : Char) ∉ quote_plus s := by
  intro hm
  have h := quote_plus_toNat hm
  rw [show ('&' : Char).toNat = 38 from rfl] at h
  omega

theorem quote_plus_not_eqs (s : Str) : ('=' : Char) ∉ quote_plus s := by
  intro hm
  have h := quote_plus_toNat hm
  rw [show ('=' : Char).toNat = 61 from rfl] at h
  omega

theorem pySplitOn_of_not_mem {ch : Char} {l : Str} (h : ch ∉ l) :
    pySplitOn ch l = [l] := by
  induction l with
  | nil => rfl
  | cons c rest ih =>
    have hne : ¬(c = ch) := by
      intro hc; subst hc; exact h (List.mem_cons_self _ _)
    simp only [pySplitOn]
    rw [if_neg hne, ih (fun hm => h (List.mem_cons_of_mem _ hm))]

theorem pySplitOn_append {ch : Char} {a : Str} (h : ch ∉ a) (b : Str) :
    pySplitOn ch (a ++ ch :: b) = a :: pySplitOn ch b := by
  induction a with
  | nil => simp [pySplitOn]
  | cons c rest ih =>
    have hne : ¬(c = ch) := by
      intro hc; subst hc; exact h (List.mem_cons_self _ _)
    simp only [List.cons_append, pySplitOn, List.append_eq]
    rw [if_neg hne, ih (fun hm => h (List.mem_cons_of_mem _ hm))]

theorem filter_filter_self {α : Type} (p : α → Bool) (l : List α) :
    (l.filter p).filter p = l.filter p :=
  List.filter_eq_self.mpr (fun a ha => (List.mem_filter.mp ha).2)

/-- The per-pair function of `parse_qsl` (named so the `filterMap` steps of
the roundtrip proof can be stated; `parse_qsl_eq` ties it to the source
definition by `rfl`). -/
def qslPair (nv : Str) : Option (Str × Str) :=
  if nv = [] then none
  else
    let p := splitAtFirst? '=' nv
    match p.2 with
    | some v => some (unquote_plus p.1, unquote_plus v)
    | none => some (unquote_plus nv, [])

theorem parse_qsl_eq (q : Str) : parse_qsl q = (pySplitOn '&' q).filterMap qslPair := rfl

theorem qslPair_enc (k v : Str) :
    qslPair (quote_plus k ++ '=' :: quote_plus v) = some (k, v) := by
  have hne : quote_plus k ++ '=' :: quote_plus v ≠ [] := by simp
  simp only [qslPair, if_neg hne,
    splitAtFirst?_append (quote_plus_not_eqs k) (quote_plus v),
    unquote_plus_quote_plus]

/-- `parse_qsl` inverts `urlencode` on string pairs (the query produced by
`normalize_url` parses back to exactly the filtered pair list). -/
theorem parse_qsl_urlencode (L : List (Str × Str)) : parse_qsl (urlencode L) = L := by
  induction L with
  | nil => rfl
  | cons kv rest ih =>
    obtain ⟨k, v⟩ := kv
    have hencAmp : ('&' : Char) ∉ quote_plus k ++ '=' :: quote_plus v := by
      intro hm
      rcases List.mem_append.mp hm with hm | hm
      · exact quote_plus_not_amp k hm
      · rcases List.mem_cons.mp hm with hm | hm
        · exact absurd hm (by decide)
        · exact quote_plus_not_amp v hm
    cases rest with
    | nil =>
      show parse_qsl (joinWith '&' [quote_plus k ++ '=' :: quote_plus v]) = [(k, v)]
      rw [joinWith, parse_qsl_eq, pySplitOn_of_not_mem hencAmp,
        List.filterMap_cons, qslPair_enc, List.filterMap_nil]
    | cons kv2 rest2 =>
      show parse_qsl ((quote_plus k ++ '=' :: quote_plus v) ++
        '&' :: urlencode (kv2 :: rest2)) = (k, v) :: kv2 :: rest2
      rw [parse_qsl_eq, pySplitOn_append hencAmp, List.filterMap_cons, qslPair_enc]
      rw [parse_qsl_eq] at ih
      rw [ih]


theorem pyUrlsplitFull_nil_eq (url : Str) :
    pyUrlsplitFull [] url =
      (let u1 := removeUnsafe (url.dropWhile (fun c => c.toNat ≤ 32))
       let sr :=
         match u1.findIdx? (fun c => c == ':') with
         | some i =>
           if 0 < i ∧ isAsciiAlpha (u1.headD '0') ∧ (u1.take i).all isSchemeChar then
             (lowerStr (u1.take i), u1.drop (i + 1))
           else (([] : Str), u1)
         | none => (([] : Str), u1)
       let rest := sr.2
       let nr :=
         if rest.take 2 = ['/', '/'] then
           ((rest.drop 2).takeWhile notDelim, (rest.drop 2).dropWhile notDelim)
         else ([], rest)
       let ok := (nr.1.contains '[' == nr.1.contains ']')
       let fr := splitAtFirst '#' nr.2
       let pq := splitAtFirst '?' fr.1
       (⟨sr.1, nr.1, pq.1, pq.2, fr.2⟩, ok)) := rfl

/-- Structure of a successful `urlsplit` with empty default scheme: some
tab/CR/LF-free remainder `rest` determines authority, path, query and
fragment, and the scheme is empty or a lowered well-formed scheme. -/
theorem pyUrlsplitFull_cases (url : Str) :
    ∃ scheme rest,
      (pyUrlsplitFull [] url).1 =
        (let nr :=
           if rest.take 2 = ['/', '/'] then
             ((rest.drop 2).takeWhile notDelim, (rest.drop 2).dropWhile notDelim)
           else ([], rest)
         let fr := splitAtFirst '#' nr.2
         let pq := splitAtFirst '?' fr.1
         ⟨scheme, nr.1, pq.1, pq.2, fr.2⟩) ∧
      (∀ c ∈ rest, isUnsafeUrlChar c = false) ∧
      (scheme = [] ∨ (scheme ≠ [] ∧ isAsciiAlpha (scheme.headD '0') = true ∧
        scheme.all isSchemeChar = true ∧ lowerStr scheme = scheme)) := by
  have hclean : ∀ c ∈ removeUnsafe (url.dropWhile (fun c => c.toNat ≤ 32)),
      isUnsafeUrlChar c = false := by
    intro c hc
    have := (List.mem_filter.mp hc).2
    simpa using this
  rw [pyUrlsplitFull_nil_eq]
  rcases hidx : (removeUnsafe (url.dropWhile (fun c => c.toNat ≤ 32))).findIdx?
      (fun c => c == ':') with _ | i
  · refine ⟨[], removeUnsafe (url.dropWhile (fun c => c.toNat ≤ 32)), ?_, hclean, Or.inl rfl⟩
    simp only [hidx]
  · by_cases hg : 0 < i ∧
        isAsciiAlpha ((removeUnsafe (url.dropWhile (fun c => c.toNat ≤ 32))).headD '0') = true ∧
        ((removeUnsafe (url.dropWhile (fun c => c.toNat ≤ 32))).take i).all isSchemeChar = true
    · refine ⟨lowerStr ((removeUnsafe (url.dropWhile (fun c => c.toNat ≤ 32))).take i),
        (removeUnsafe (url.dropWhile (fun c => c.toNat ≤ 32))).drop (i + 1), ?_, ?_, ?_⟩
      · simp only [hidx, if_pos hg]
      · intro c hc
        exact hclean c (List.drop_subset _ _ hc)
      · right
        obtain ⟨hi, hha, hall⟩ := hg
        have hu1ne : removeUnsafe (url.dropWhile (fun c => c.toNat ≤ 32)) ≠ [] := by
          intro h0
          rw [h0] at hha
          simp [isAsciiAlpha] at hha
        have htne : (removeUnsafe (url.dropWhile (fun c => c.toNat ≤ 32))).take i ≠ [] := by
          cases hu : removeUnsafe (url.dropWhile (fun c => c.toNat ≤ 32)) with
          | nil => exact absurd hu hu1ne
          | cons c t =>
            cases i with
            | zero => omega
            | succ j => simp [hu]
        refine ⟨?_, ?_, ?_, lowerStr_idem _⟩
        · simpa [lowerStr] using htne
        · have hhead : ((removeUnsafe (url.dropWhile (fun c => c.toNat ≤ 32))).take i).headD '0'
              = (removeUnsafe (url.dropWhile (fun c => c.toNat ≤ 32))).headD '0' := by
            cases hu : removeUnsafe (url.dropWhile (fun c => c.toNat ≤ 32)) with
            | nil => exact absurd hu hu1ne
            | cons c t =>
              cases i with
              | zero => omega
              | succ j => simp [hu]
          cases htk : (removeUnsafe (url.dropWhile (fun c => c.toNat ≤ 32))).take i with
          | nil => exact absurd htk htne
          | cons c t =>
            have hc : c = (removeUnsafe (url.dropWhile (fun c => c.toNat ≤ 32))).headD '0' := by
              rw [← hhead, htk]; rfl
            simp only [htk, lowerStr, List.map_cons, List.headD_cons]
            exact isAsciiAlpha_toLower (by rw [hc]; exact hha)
        · rw [lowerStr, List.all_map, List.all_eq_true] at *
          intro c hc
          exact isSchemeChar_toLower (hall c hc)
    · refine ⟨[], removeUnsafe (url.dropWhile (fun c => c.toNat ≤ 32)), ?_, hclean, Or.inl rfl⟩
      simp only [hidx, if_neg hg]


theorem lastSeg_subset (p : Str) : lastSeg p ⊆ p := by
  intro x hx
  rw [lastSeg, List.mem_reverse] at hx
  have := List.takeWhile_subset (l := p.reverse) (fun c => !(c == '/')) hx
  rwa [List.mem_reverse] at this

theorem lastSeg_length_lt {p : Str} (h : ('/' : Char) ∈ p) :
    (lastSeg p).length < p.length := by
  rw [lastSeg, List.length_reverse]
  have hsub := List.takeWhile_sublist (l := p.reverse) (fun c => !(c == '/'))
  have hle := hsub.length_le
  rcases Nat.lt_or_ge (p.reverse.takeWhile (fun c => !(c == '/'))).length p.reverse.length
    with hlt | hge
  · simpa using hlt
  · exfalso
    have heqlen : (p.reverse.takeWhile (fun c => !(c == '/'))).length = p.reverse.length := by
      omega
    have heq := hsub.eq_of_length heqlen
    have hall := List.takeWhile_eq_self_iff.mp heq
    have := hall '/' (List.mem_reverse.mpr h)
    simp at this

theorem splitparams_fst_subset (p : Str) : (splitparams p).1 ⊆ p := by
  rw [splitparams]
  by_cases h1 : p.contains ';' = true
  · rw [if_pos h1]
    by_cases h2 : p.contains '/' = true
    · rw [if_pos h2]
      by_cases h3 : (lastSeg p).contains ';' = true
      · rw [if_pos h3]
        intro x hx
        rcases List.mem_append.mp hx with hx | hx
        · exact List.take_subset _ _ hx
        · exact lastSeg_subset p (splitAtFirst?_fst_subset ';' (lastSeg p) hx)
      · rw [if_neg h3]
        exact List.Subset.refl p
    · rw [if_neg h2]
      intro x hx
      exact splitAtFirst?_fst_subset ';' p hx
  · rw [if_neg h1]
    exact List.Subset.refl p

theorem splitparams_fst_head {p : Str} (hp : p.headD ' ' = '/') :
    (splitparams p).1 = [] ∨ (splitparams p).1.headD ' ' = '/' := by
  have hpne : p ≠ [] := by
    intro h0; rw [h0] at hp; exact absurd hp (by decide)
  have hmem : ('/' : Char) ∈ p := by
    cases p with
    | nil => exact absurd rfl hpne
    | cons c t =>
      simp only [List.headD_cons] at hp
      exact List.mem_cons.mpr (Or.inl hp.symm)
  rw [splitparams]
  by_cases h1 : p.contains ';' = true
  · rw [if_pos h1]
    by_cases h2 : p.contains '/' = true
    · rw [if_pos h2]
      by_cases h3 : (lastSeg p).contains ';' = true
      · rw [if_pos h3]
        right
        have hklt := lastSeg_length_lt hmem
        obtain ⟨c, t, hp'⟩ : ∃ c t, p = c :: t := by
          cases p with
          | nil => exact absurd rfl hpne
          | cons c t => exact ⟨c, t, rfl⟩
        obtain ⟨j, hj⟩ : ∃ j, p.length - (lastSeg p).length = j + 1 :=
          ⟨p.length - (lastSeg p).length - 1, by omega⟩
        rw [hj, hp', List.take_succ_cons]
        rw [hp'] at hp
        simp only [List.headD_cons] at hp
        simp [hp]
      · rw [if_neg h3]
        right
        exact hp
    · rw [if_neg h2]
      exact absurd (List.elem_iff.mpr hmem) h2
  · rw [if_neg h1]
    right
    exact hp

theorem splitparams_of_not_mem {p : Str} (h : (';' : Char) ∉ lastSeg p) :
    splitparams p = (p, []) := by
  rw [splitparams]
  by_cases h1 : p.contains ';' = true
  · rw [if_pos h1]
    by_cases h2 : p.contains '/' = true
    · rw [if_pos h2]
      rw [if_neg (fun hc => h (List.elem_iff.mp hc))]
    · rw [if_neg h2]
      exfalso
      have hseg : lastSeg p = p := by
        rw [lastSeg, List.takeWhile_eq_self_iff.mpr, List.reverse_reverse]
        intro x hx
        simp only [Bool.not_eq_true', beq_eq_false_iff_ne, ne_eq]
        intro hx47
        subst hx47
        exact h2 (List.elem_iff.mpr (List.mem_reverse.mp hx))
      refine h ?_
      rw [hseg]
      exact List.elem_iff.mp h1
  · rw [if_neg h1]



theorem splitAtFirst_fst_cons_ne {ch c : Char} (h : ¬(c = ch)) (t : Str) :
    (splitAtFirst ch (c :: t)).1 = c :: (splitAtFirst? ch t).1 := by
  simp only [splitAtFirst, splitAtFirst?]
  rw [if_neg h]

theorem splitAtFirst_fst_cons_eq {ch : Char} (t : Str) :
    (splitAtFirst ch (ch :: t)).1 = [] := by
  simp [splitAtFirst, splitAtFirst?]

/-- Invariants of the components of a `urlsplit` with empty default
scheme, as used by `normalize_url`'s reassembly. -/
theorem urlsplit_invariants (url : Str) :
    ((pyUrlsplitFull [] url).1.scheme = [] ∨
      ((pyUrlsplitFull [] url).1.scheme ≠ [] ∧
        isAsciiAlpha ((pyUrlsplitFull [] url).1.scheme.headD '0') = true ∧
        (pyUrlsplitFull [] url).1.scheme.all isSchemeChar = true ∧
        lowerStr (pyUrlsplitFull [] url).1.scheme = (pyUrlsplitFull [] url).1.scheme)) ∧
    (∀ c ∈ (pyUrlsplitFull [] url).1.netloc, notDelim c = true) ∧
    (∀ c ∈ (pyUrlsplitFull [] url).1.netloc, isUnsafeUrlChar c = false) ∧
    (('#' : Char) ∉ (pyUrlsplitFull [] url).1.path ∧
      ('?' : Char) ∉ (pyUrlsplitFull [] url).1.path) ∧
    (∀ c ∈ (pyUrlsplitFull [] url).1.path, isUnsafeUrlChar c = false) ∧
    ((pyUrlsplitFull [] url).1.netloc ≠ [] →
      (pyUrlsplitFull [] url).1.path = [] ∨
        (pyUrlsplitFull [] url).1.path.headD ' ' = '/') := by
  obtain ⟨s, rest, heq, hrest, hs⟩ := pyUrlsplitFull_cases url
  simp only [] at heq
  by_cases hb : rest.take 2 = ['/', '/']
  · rw [if_pos hb] at heq
    rw [heq]
    simp only []
    refine ⟨hs, ?_, ?_, ⟨?_, ?_⟩, ?_, ?_⟩
    · intro c hc
      exact List.mem_takeWhile_imp hc
    · intro c hc
      exact hrest c (List.drop_subset _ _ (List.takeWhile_subset _ hc))
    · intro hm
      exact splitAtFirst?_fst_not_mem '#' _
        (splitAtFirst?_fst_subset '?' _ hm)
    · intro hm
      exact splitAtFirst?_fst_not_mem '?' _ hm
    · intro c hc
      exact hrest c (List.drop_subset _ _ (List.dropWhile_subset _
        (splitAtFirst?_fst_subset '#' _ (splitAtFirst?_fst_subset '?' _ hc))))
    · intro hne
      rcases hX : (rest.drop 2).dropWhile notDelim with _ | ⟨h0, t⟩
      · left
        rfl
      · have hnd : notDelim h0 = false := by
          have hh := List.head?_dropWhile_not notDelim (rest.drop 2)
          rw [hX] at hh
          exact hh
        have hnd' : (h0.toNat == 47 || h0.toNat == 63 || h0.toNat == 35) = true := by
          cases hbb : (h0.toNat == 47 || h0.toNat == 63 || h0.toNat == 35) with
          | true => rfl
          | false =>
            rw [notDelim, hbb] at hnd
            simp at hnd
        have h0cases : h0 = '/' ∨ h0 = '?' ∨ h0 = '#' := by
          simp only [Bool.or_eq_true, beq_iff_eq] at hnd'
          rcases hnd' with (h | h) | h
          · left; rw [char_eq_iff_toNat, show ('/' : Char).toNat = 47 from rfl]; exact h
          · right; left; rw [char_eq_iff_toNat, show ('?' : Char).toNat = 63 from rfl]; exact h
          · right; right; rw [char_eq_iff_toNat, show ('#' : Char).toNat = 35 from rfl]; exact h
        rcases h0cases with h0c | h0c | h0c <;> subst h0c
        · right
          rw [splitAtFirst_fst_cons_ne (by decide) t,
            splitAtFirst_fst_cons_ne (by decide)]
          rfl
        · left
          rw [splitAtFirst_fst_cons_ne (by decide) t, splitAtFirst_fst_cons_eq]
        · left
          rw [splitAtFirst_fst_cons_eq]
          rfl
  · rw [if_neg hb] at heq
    rw [heq]
    simp only []
    refine ⟨hs, ?_, ?_, ⟨?_, ?_⟩, ?_, ?_⟩
    · intro c hc
      exact absurd hc (List.not_mem_nil c)
    · intro c hc
      exact absurd hc (List.not_mem_nil c)
    · intro hm
      exact splitAtFirst?_fst_not_mem '#' _
        (splitAtFirst?_fst_subset '?' _ hm)
    · intro hm
      exact splitAtFirst?_fst_not_mem '?' _ hm
    · intro c hc
      exact hrest c (splitAtFirst?_fst_subset '#' _ (splitAtFirst?_fst_subset '?' _ hc))
    · intro hne
      exact absurd rfl hne


theorem urlparse_scheme_eq (url : Str) :
    (pyUrlparseFull [] url).1.scheme = (pyUrlsplitFull [] url).1.scheme := rfl

theorem urlparse_netloc_eq (url : Str) :
    (pyUrlparseFull [] url).1.netloc = (pyUrlsplitFull [] url).1.netloc := rfl

theorem urlparse_query_eq (url : Str) :
    (pyUrlparseFull [] url).1.query = (pyUrlsplitFull [] url).1.query := rfl

theorem urlparse_ok_eq (url : Str) :
    (pyUrlparseFull [] url).2 = (pyUrlsplitFull [] url).2 := rfl

theorem urlparse_path_eq (url : Str) :
    (pyUrlparseFull [] url).1.path =
      (if uses_params.contains (pyUrlsplitFull [] url).1.scheme then
        splitparams (pyUrlsplitFull [] url).1.path
      else ((pyUrlsplitFull [] url).1.path, [])).1 := rfl

/-- The `urlparse` components inherit the `urlsplit` invariants (the params
split only shortens the path's last segment). -/
theorem urlparse_invariants (url : Str) :
    ((pyUrlparseFull [] url).1.scheme = [] ∨
      ((pyUrlparseFull [] url).1.scheme ≠ [] ∧
        isAsciiAlpha ((pyUrlparseFull [] url).1.scheme.headD '0') = true ∧
        (pyUrlparseFull [] url).1.scheme.all isSchemeChar = true ∧
        lowerStr (pyUrlparseFull [] url).1.scheme = (pyUrlparseFull [] url).1.scheme)) ∧
    (∀ c ∈ (pyUrlparseFull [] url).1.netloc, notDelim c = true) ∧
    (∀ c ∈ (pyUrlparseFull [] url).1.netloc, isUnsafeUrlChar c = false) ∧
    (('#' : Char) ∉ (pyUrlparseFull [] url).1.path ∧
      ('?' : Char) ∉ (pyUrlparseFull [] url).1.path) ∧
    (∀ c ∈ (pyUrlparseFull [] url).1.path, isUnsafeUrlChar c = false) ∧
    ((pyUrlparseFull [] url).1.netloc ≠ [] →
      (pyUrlparseFull [] url).1.path = [] ∨
        (pyUrlparseFull [] url).1.path.headD ' ' = '/') := by
  obtain ⟨hs, hnd, hncl, ⟨hph, hpq⟩, hpcl, hphd⟩ := urlsplit_invariants url
  have hsub : (pyUrlparseFull [] url).1.path ⊆ (pyUrlsplitFull [] url).1.path := by
    rw [urlparse_path_eq]
    by_cases hup : uses_params.contains (pyUrlsplitFull [] url).1.scheme = true
    · rw [if_pos hup]
      exact splitparams_fst_subset _
    · rw [if_neg hup]
      exact List.Subset.refl _
  refine ⟨hs, hnd, hncl, ⟨fun hm => hph (hsub hm), fun hm => hpq (hsub hm)⟩,
    fun c hc => hpcl c (hsub hc), ?_⟩
  rw [urlparse_netloc_eq, urlparse_path_eq]
  intro hne
  by_cases hup : uses_params.contains (pyUrlsplitFull [] url).1.scheme = true
  · rw [if_pos hup]
    rcases hphd hne with hnil | hhd
    · left
      rw [hnil]
      rfl
    · exact splitparams_fst_head hhd
  · rw [if_neg hup]
    exact hphd hne


theorem isSchemeChar_facts {c : Char} (h : isSchemeChar c = true) :
    isUnsafeUrlChar c = false ∧ c ≠ ':' ∧ ¬(c.toNat ≤ 32) := by
  simp only [isSchemeChar, isAsciiAlpha, isAsciiDigit, Bool.or_eq_true,
    Bool.and_eq_true, decide_eq_true_eq, beq_iff_eq] at h
  refine ⟨?_, ?_, by omega⟩
  · simp only [isUnsafeUrlChar, Bool.or_eq_false_iff, beq_eq_false_iff_ne, ne_eq]
    omega
  · rw [ne_eq, char_eq_iff_toNat, show (':' : Char).toNat = 58 from rfl]
    omega

theorem headD_append_left {a : Str} (ha : a ≠ []) (b : Str) (d : Char) :
    (a ++ b).headD d = a.headD d := by
  cases a with
  | nil => exact absurd rfl ha
  | cons c t => rfl

/-- Splitting a reassembled `scheme:rest` URL whose scheme is well-formed
and whose remainder is tab/CR/LF-free: the cleanup and scheme-detection
phases are the identity and the scheme comes back verbatim. -/
theorem urlsplit_assembled (s rest0 : Str)
    (hs_ne : s ≠ []) (hs_head : isAsciiAlpha (s.headD '0') = true)
    (hs_chars : s.all isSchemeChar = true) (hs_low : lowerStr s = s)
    (hcl : ∀ c ∈ rest0, isUnsafeUrlChar c = false) :
    pyUrlsplitFull [] (s ++ ':' :: rest0) =
      (let nr :=
         if rest0.take 2 = ['/', '/'] then
           ((rest0.drop 2).takeWhile notDelim, (rest0.drop 2).dropWhile notDelim)
         else ([], rest0)
       let fr := splitAtFirst '#' nr.2
       let pq := splitAtFirst '?' fr.1
       (⟨s, nr.1, pq.1, pq.2, fr.2⟩, (nr.1.contains '[' == nr.1.contains ']'))) := by
  have hall := List.all_eq_true.mp hs_chars
  have hscolon : (':' : Char) ∉ s := by
    intro hm
    exact absurd rfl (isSchemeChar_facts (hall ':' hm)).2.1
  have hdw : (s ++ ':' :: rest0).dropWhile (fun c => c.toNat ≤ 32) = s ++ ':' :: rest0 := by
    cases hs : s with
    | nil => exact absurd hs hs_ne
    | cons c t =>
      rw [List.cons_append]
      refine List.dropWhile_cons_of_neg ?_
      have hc : isSchemeChar c = true := by
        apply hall
        rw [hs]; exact List.mem_cons_self _ _
      simpa using (isSchemeChar_facts hc).2.2
  have hru : removeUnsafe (s ++ ':' :: rest0) = s ++ ':' :: rest0 := by
    rw [removeUnsafe]
    refine List.filter_eq_self.mpr ?_
    intro c hc
    rcases List.mem_append.mp hc with hm | hm
    · simp [(isSchemeChar_facts (hall c hm)).1]
    · rcases List.mem_cons.mp hm with hm | hm
      · subst hm; decide
      · simp [hcl c hm]
  have hidx := findIdx?_colon_append hscolon rest0
  have h1 : 0 < s.length := by
    cases s with
    | nil => exact absurd rfl hs_ne
    | cons c t => simp
  have h2 : isAsciiAlpha ((s ++ ':' :: rest0).headD '0') = true := by
    rw [headD_append_left hs_ne]
    exact hs_head
  have h3 : ((s ++ ':' :: rest0).take s.length).all isSchemeChar = true := by
    rw [List.take_left]
    exact hs_chars
  rw [pyUrlsplitFull_nil_eq, hdw, hru]
  dsimp only
  rw [hidx]
  dsimp only
  rw [if_pos ⟨h1, h2, h3⟩, List.take_left, hs_low, drop_len_succ_append]


theorem splitAtFirst_of_not_mem {ch : Char} {l : Str} (h : ch ∉ l) :
    splitAtFirst ch l = (l, []) := by
  simp only [splitAtFirst, splitAtFirst?_of_not_mem h]
  rfl

theorem splitAtFirst_append {ch : Char} {a : Str} (h : ch ∉ a) (b : Str) :
    splitAtFirst ch (a ++ ch :: b) = (a, b) := by
  simp only [splitAtFirst, splitAtFirst?_append h]
  rfl

/-- Splitting a reassembled authority-form URL
`scheme://netloc/path[?query]` recovers its components. -/
theorem urlsplit_auth (s n pm q : Str)
    (hs_ne : s ≠ []) (hs_head : isAsciiAlpha (s.headD '0') = true)
    (hs_chars : s.all isSchemeChar = true) (hs_low : lowerStr s = s)
    (hn : ∀ c ∈ n, notDelim c = true) (hn_cl : ∀ c ∈ n, isUnsafeUrlChar c = false)
    (hpm_ne : pm ≠ []) (hpm_hd : pm.headD ' ' = '/')
    (hpm_hash : ('#' : Char) ∉ pm) (hpm_q : ('?' : Char) ∉ pm)
    (hpm_cl : ∀ c ∈ pm, isUnsafeUrlChar c = false)
    (hq_hash : ('#' : Char) ∉ q) (hq_cl : ∀ c ∈ q, isUnsafeUrlChar c = false) :
    pyUrlsplitFull [] (s ++ ':' :: '/' :: '/' ::
        (n ++ (pm ++ (if q = [] then [] else '?' :: q)))) =
      (⟨s, n, pm, q, []⟩, (n.contains '[' == n.contains ']')) := by
  have hqp_hash : ('#' : Char) ∉ (if q = [] then [] else '?' :: q) := by
    by_cases hq0 : q = []
    · rw [if_pos hq0]; exact List.not_mem_nil _
    · rw [if_neg hq0]
      intro hm
      rcases List.mem_cons.mp hm with hm | hm
      · exact absurd hm (by decide)
      · exact hq_hash hm
  have hqp_cl : ∀ c ∈ (if q = [] then [] else '?' :: q), isUnsafeUrlChar c = false := by
    by_cases hq0 : q = []
    · rw [if_pos hq0]; intro c hc; exact absurd hc (List.not_mem_nil c)
    · rw [if_neg hq0]
      intro c hc
      rcases List.mem_cons.mp hc with hc | hc
      · subst hc; decide
      · exact hq_cl c hc
  have hcl : ∀ c ∈ ('/' :: '/' ::
      (n ++ (pm ++ (if q = [] then [] else '?' :: q)))), isUnsafeUrlChar c = false := by
    intro c hc
    rcases List.mem_cons.mp hc with hc | hc
    · subst hc; decide
    rcases List.mem_cons.mp hc with hc | hc
    · subst hc; decide
    rcases List.mem_append.mp hc with hc | hc
    · exact hn_cl c hc
    rcases List.mem_append.mp hc with hc | hc
    · exact hpm_cl c hc
    · exact hqp_cl c hc
  rw [show s ++ ':' :: '/' :: '/' :: (n ++ (pm ++ (if q = [] then [] else '?' :: q)))
      = s ++ ':' :: ('/' :: '/' :: (n ++ (pm ++ (if q = [] then [] else '?' :: q))))
    from rfl]
  rw [urlsplit_assembled s _ hs_ne hs_head hs_chars hs_low hcl]
  have htw := takeWhile_append_block (q := notDelim) hn
    (b := pm ++ (if q = [] then [] else '?' :: q))
    (by simp [hpm_ne]) (by rw [headD_append_left hpm_ne, hpm_hd]; decide)
  dsimp only
  rw [if_pos (show List.take 2 ('/' :: '/' ::
        (n ++ (pm ++ (if q = [] then [] else '?' :: q)))) = ['/', '/'] from rfl),
    show List.drop 2 ('/' :: '/' :: (n ++ (pm ++ (if q = [] then [] else '?' :: q))))
      = n ++ (pm ++ (if q = [] then [] else '?' :: q)) from rfl,
    htw.1, htw.2]
  have hfr : splitAtFirst '#' (pm ++ (if q = [] then [] else '?' :: q))
      = (pm ++ (if q = [] then [] else '?' :: q), []) := by
    refine splitAtFirst_of_not_mem ?_
    intro hm
    rcases List.mem_append.mp hm with hm | hm
    · exact hpm_hash hm
    · exact hqp_hash hm
  rw [hfr]
  by_cases hq0 : q = []
  · subst hq0
    rw [show (if ([] : Str) = [] then ([] : Str) else '?' :: []) = [] from rfl,
      List.append_nil, splitAtFirst_of_not_mem hpm_q]
  · rw [if_neg hq0, splitAtFirst_append hpm_q]

/-- Splitting a reassembled authority-less URL `scheme:path[?query]`
recovers its components. -/
theorem urlsplit_plain (s p q : Str)
    (hs_ne : s ≠ []) (hs_head : isAsciiAlpha (s.headD '0') = true)
    (hs_chars : s.all isSchemeChar = true) (hs_low : lowerStr s = s)
    (hp_ne : p ≠ []) (hp2 : p.take 2 ≠ ['/', '/'])
    (hp_hash : ('#' : Char) ∉ p) (hp_q : ('?' : Char) ∉ p)
    (hp_cl : ∀ c ∈ p, isUnsafeUrlChar c = false)
    (hq_hash : ('#' : Char) ∉ q) (hq_cl : ∀ c ∈ q, isUnsafeUrlChar c = false) :
    pyUrlsplitFull [] (s ++ ':' :: (p ++ (if q = [] then [] else '?' :: q))) =
      (⟨s, [], p, q, []⟩, true) := by
  have hqp_hash : ('#' : Char) ∉ (if q = [] then [] else '?' :: q) := by
    by_cases hq0 : q = []
    · rw [if_pos hq0]; exact List.not_mem_nil _
    · rw [if_neg hq0]
      intro hm
      rcases List.mem_cons.mp hm with hm | hm
      · exact absurd hm (by decide)
      · exact hq_hash hm
  have hqp_cl : ∀ c ∈ (if q = [] then [] else '?' :: q), isUnsafeUrlChar c = false := by
    by_cases hq0 : q = []
    · rw [if_pos hq0]; intro c hc; exact absurd hc (List.not_mem_nil c)
    · rw [if_neg hq0]
      intro c hc
      rcases List.mem_cons.mp hc with hc | hc
      · subst hc; decide
      · exact hq_cl c hc
  have hcl : ∀ c ∈ p ++ (if q = [] then [] else '?' :: q), isUnsafeUrlChar c = false := by
    intro c hc
    rcases List.mem_append.mp hc with hc | hc
    · exact hp_cl c hc
    · exact hqp_cl c hc
  rw [urlsplit_assembled s _ hs_ne hs_head hs_chars hs_low hcl]
  have hcond : ¬(List.take 2 (p ++ (if q = [] then [] else '?' :: q)) = ['/', '/']) := by
    intro hc
    cases p with
    | nil => exact absurd rfl hp_ne
    | cons c t =>
      cases t with
      | nil =>
        by_cases hq0 : q = []
        · rw [if_pos hq0] at hc
          simp at hc
        · rw [if_neg hq0] at hc
          have : c = '/' ∧ ('?' : Char) = '/' := by simpa using hc
          exact absurd this.2 (by decide)
      | cons d t' =>
        have hcd : c = '/' ∧ d = '/' := by simpa using hc
        exact hp2 (by simp [hcd.1, hcd.2])
  dsimp only
  rw [if_neg hcond]
  have hfr : splitAtFirst '#' (p ++ (if q = [] then [] else '?' :: q))
      = (p ++ (if q = [] then [] else '?' :: q), []) := by
    refine splitAtFirst_of_not_mem ?_
    intro hm
    rcases List.mem_append.mp hm with hm | hm
    · exact hp_hash hm
    · exact hqp_hash hm
  rw [hfr]
  by_cases hq0 : q = []
  · subst hq0
    rw [show (if ([] : Str) = [] then ([] : Str) else '?' :: []) = [] from rfl,
      List.append_nil, splitAtFirst_of_not_mem hp_q]
    rfl
  · rw [if_neg hq0, splitAtFirst_append hp_q]
    rfl


/-- Re-splitting the output of `urlunsplit` on well-formed components
recovers them, except that an empty-authority `uses_netloc` URL whose path
does not start with `'/'` comes back with a `'/'` prepended to the path. -/
theorem reparse_split (s n p q : Str)
    (hs_ne : s ≠ []) (hs_head : isAsciiAlpha (s.headD '0') = true)
    (hs_chars : s.all isSchemeChar = true) (hs_low : lowerStr s = s)
    (hn : ∀ c ∈ n, notDelim c = true) (hn_cl : ∀ c ∈ n, isUnsafeUrlChar c = false)
    (hp_ne : p ≠ []) (hp_hash : ('#' : Char) ∉ p) (hp_q : ('?' : Char) ∉ p)
    (hp_cl : ∀ c ∈ p, isUnsafeUrlChar c = false)
    (hnp : n ≠ [] → p.headD ' ' = '/')
    (hq_hash : ('#' : Char) ∉ q) (hq_cl : ∀ c ∈ q, isUnsafeUrlChar c = false)
    (hD : ¬(n = [] ∧ p.take 2 = ['/', '/'])) :
    pyUrlsplitFull [] (pyUrlunsplit s n p q []) =
      (⟨s, n,
        (if n = [] ∧ uses_netloc.contains s = true ∧ ¬(p.headD ' ' = '/') then '/' :: p
          else p),
        q, []⟩, (n.contains '[' == n.contains ']')) := by
  by_cases hn0 : n = []
  · subst hn0
    by_cases hun : uses_netloc.contains s = true
    · have hcond : ([] : Str) ≠ [] ∨ (s ≠ [] ∧ uses_netloc.contains s = true ∧
          p.take 2 ≠ ['/', '/']) :=
        Or.inr ⟨hs_ne, hun, fun h2 => hD ⟨rfl, h2⟩⟩
      by_cases hhd : p.headD ' ' = '/'
      · have hy : pyUrlunsplit s [] p q [] =
            s ++ ':' :: '/' :: '/' :: ([] ++ (p ++ (if q = [] then [] else '?' :: q))) := by
          rw [pyUrlunsplit,
            if_neg (show ¬(([] : Str) ≠ []) from fun hc => hc rfl)]
          by_cases hq0 : q = []
          · rw [if_neg (show ¬(q ≠ []) from fun hc => hc hq0), if_pos hs_ne,
              if_pos hcond,
              if_neg (show ¬(p ≠ [] ∧ p.headD ' ' ≠ '/') from fun hc => hc.2 hhd),
              if_pos hq0, List.append_nil]
            simp
          · rw [if_pos (show q ≠ [] from hq0), if_pos hs_ne, if_pos hcond,
              if_neg (show ¬(p ≠ [] ∧ p.headD ' ' ≠ '/') from fun hc => hc.2 hhd),
              if_neg hq0]
            simp
        rw [hy, urlsplit_auth s [] p q hs_ne hs_head hs_chars hs_low
          (fun c hc => absurd hc (List.not_mem_nil c))
          (fun c hc => absurd hc (List.not_mem_nil c))
          hp_ne hhd hp_hash hp_q hp_cl hq_hash hq_cl,
          if_neg (fun hc => hc.2.2 hhd)]
      · have hy : pyUrlunsplit s [] p q [] =
            s ++ ':' :: '/' :: '/' ::
              ([] ++ (('/' :: p) ++ (if q = [] then [] else '?' :: q))) := by
          rw [pyUrlunsplit,
            if_neg (show ¬(([] : Str) ≠ []) from fun hc => hc rfl)]
          by_cases hq0 : q = []
          · rw [if_neg (show ¬(q ≠ []) from fun hc => hc hq0), if_pos hs_ne,
              if_pos hcond,
              if_pos (show p ≠ [] ∧ p.headD ' ' ≠ '/' from ⟨hp_ne, hhd⟩),
              if_pos hq0, List.append_nil]
            simp
          · rw [if_pos (show q ≠ [] from hq0), if_pos hs_ne, if_pos hcond,
              if_pos (show p ≠ [] ∧ p.headD ' ' ≠ '/' from ⟨hp_ne, hhd⟩),
              if_neg hq0]
            simp
        have hsp_hash : ('#' : Char) ∉ '/' :: p := by
          intro hm
          rcases List.mem_cons.mp hm with hm | hm
          · exact absurd hm (by decide)
          · exact hp_hash hm
        have hsp_q : ('?' : Char) ∉ '/' :: p := by
          intro hm
          rcases List.mem_cons.mp hm with hm | hm
          · exact absurd hm (by decide)
          · exact hp_q hm
        have hsp_cl : ∀ c ∈ '/' :: p, isUnsafeUrlChar c = false := by
          intro c hc
          rcases List.mem_cons.mp hc with hc | hc
          · subst hc; decide
          · exact hp_cl c hc
        rw [hy, urlsplit_auth s [] ('/' :: p) q hs_ne hs_head hs_chars hs_low
          (fun c hc => absurd hc (List.not_mem_nil c))
          (fun c hc => absurd hc (List.not_mem_nil c))
          (by simp) rfl hsp_hash hsp_q hsp_cl hq_hash hq_cl,
          if_pos ⟨rfl, hun, hhd⟩]
    · have hcond : ¬(([] : Str) ≠ [] ∨ (s ≠ [] ∧ uses_netloc.contains s = true ∧
          p.take 2 ≠ ['/', '/'])) := by
        rintro (hc | hc)
        · exact hc rfl
        · exact hun hc.2.1
      have hy : pyUrlunsplit s [] p q [] =
          s ++ ':' :: (p ++ (if q = [] then [] else '?' :: q)) := by
        rw [pyUrlunsplit,
          if_neg (show ¬(([] : Str) ≠ []) from fun hc => hc rfl)]
        by_cases hq0 : q = []
        · rw [if_neg (show ¬(q ≠ []) from fun hc => hc hq0), if_pos hs_ne,
            if_neg hcond, if_pos hq0, List.append_nil]
        · rw [if_pos (show q ≠ [] from hq0), if_pos hs_ne, if_neg hcond,
            if_neg hq0]
          simp
      have hp2 : p.take 2 ≠ ['/', '/'] := fun h2 => hD ⟨rfl, h2⟩
      rw [hy, urlsplit_plain s p q hs_ne hs_head hs_chars hs_low hp_ne hp2
        hp_hash hp_q hp_cl hq_hash hq_cl,
        if_neg (fun hc => hun hc.2.1)]
      rfl
  · have hcond : n ≠ [] ∨ (s ≠ [] ∧ uses_netloc.contains s = true ∧
        p.take 2 ≠ ['/', '/']) := Or.inl hn0
    have hhd := hnp hn0
    have hy : pyUrlunsplit s n p q [] =
        s ++ ':' :: '/' :: '/' :: (n ++ (p ++ (if q = [] then [] else '?' :: q))) := by
      rw [pyUrlunsplit,
        if_neg (show ¬(([] : Str) ≠ []) from fun hc => hc rfl)]
      by_cases hq0 : q = []
      · rw [if_neg (show ¬(q ≠ []) from fun hc => hc hq0), if_pos hs_ne,
          if_pos hcond,
          if_neg (show ¬(p ≠ [] ∧ p.headD ' ' ≠ '/') from fun hc => hc.2 hhd),
          if_pos hq0, List.append_nil]
        simp
      · rw [if_pos (show q ≠ [] from hq0), if_pos hs_ne, if_pos hcond,
          if_neg (show ¬(p ≠ [] ∧ p.headD ' ' ≠ '/') from fun hc => hc.2 hhd),
          if_neg hq0]
        simp
    rw [hy, urlsplit_auth s n p q hs_ne hs_head hs_chars hs_low hn hn_cl
      hp_ne hhd hp_hash hp_q hp_cl hq_hash hq_cl,
      if_neg (fun hc => hn0 hc.1)]


theorem headD_reverse (l : Str) (d : Char) : l.reverse.headD d = l.getLastD d := by
  rw [List.headD_eq_head?, List.head?_reverse, List.getLastD_eq_getLast?]

theorem getLastD_reverse (l : Str) (d : Char) : l.reverse.getLastD d = l.headD d := by
  have h := headD_reverse l.reverse d
  rw [List.reverse_reverse] at h
  exact h.symm

/-- `str.strip()` is the identity on a string whose ends are not
whitespace. -/
theorem pyStrip_eq_self_of {y : Str} (h1 : pyWs (y.headD 'x') = false)
    (h2 : pyWs (y.getLastD 'x') = false) : pyStrip y = y := by
  rw [pyStrip]
  have hd : y.dropWhile pyWs = y := by
    cases y with
    | nil => rfl
    | cons c t =>
      simp only [List.headD_cons] at h1
      exact List.dropWhile_cons_of_neg (by simp [h1])
  rw [hd]
  have hr : y.reverse.dropWhile pyWs = y.reverse := by
    cases hyr : y.reverse with
    | nil => rfl
    | cons c t =>
      have h3 := headD_reverse y 'x'
      rw [hyr] at h3
      simp only [List.headD_cons] at h3
      rw [← h3] at h2
      exact List.dropWhile_cons_of_neg (by simp [h2])
  rw [hr, List.reverse_reverse]

theorem dropWhile_ends (p : Char → Bool) (l : Str) :
    l.dropWhile p = [] ∨ (p ((l.dropWhile p).headD 'x') = false ∧
      (l.dropWhile p).getLast? = l.getLast?) := by
  cases hdw : l.dropWhile p with
  | nil => exact Or.inl rfl
  | cons c t =>
    right
    constructor
    · have hh := List.head?_dropWhile_not p l
      rw [hdw] at hh
      simpa using hh
    · obtain ⟨pre, hpre⟩ := (List.dropWhile_suffix (l := l) p)
      rw [hdw] at hpre
      rw [← hpre, List.getLast?_append]
      cases hgl : (c :: t).getLast? with
      | none => exact absurd (List.getLast?_eq_none_iff.mp hgl) (by simp)
      | some x => rfl

/-- Both ends of a stripped string are non-whitespace. -/
theorem pyStrip_ends (l : Str) :
    pyWs ((pyStrip l).headD 'x') = false ∧ pyWs ((pyStrip l).getLastD 'x') = false := by
  constructor
  · rw [pyStrip, headD_reverse]
    rcases dropWhile_ends pyWs (l.dropWhile pyWs).reverse with h | ⟨hh, hl⟩
    · rw [h]; decide
    · rw [List.getLastD_eq_getLast?, hl, List.getLast?_reverse, ← List.headD_eq_head?]
      rcases dropWhile_ends pyWs l with h0 | ⟨hh0, -⟩
      · rw [h0]; decide
      · exact hh0
  · rw [pyStrip, getLastD_reverse]
    rcases dropWhile_ends pyWs (l.dropWhile pyWs).reverse with h | ⟨hh, hl⟩
    · rw [h]; decide
    · exact hh

/-- `str.strip()` is idempotent. -/
theorem pyStrip_idem (l : Str) : pyStrip (pyStrip l) = pyStrip l :=
  pyStrip_eq_self_of (pyStrip_ends l).1 (pyStrip_ends l).2


/-- Characters of `urlencode` output: pair separators or `quote_plus`
output characters. -/
theorem urlencode_toNat {L : List (Str × Str)} {c : Char} (hc : c ∈ urlencode L) :
    c.toNat = 38 ∨ c.toNat = 61 ∨
    (48 ≤ c.toNat ∧ c.toNat ≤ 57) ∨ (65 ≤ c.toNat ∧ c.toNat ≤ 90) ∨
    (97 ≤ c.toNat ∧ c.toNat ≤ 122) ∨ c.toNat = 95 ∨ c.toNat = 46 ∨ c.toNat = 45 ∨
    c.toNat = 126 ∨ c.toNat = 43 ∨ c.toNat = 37 := by
  induction L with
  | nil => exact absurd hc (List.not_mem_nil c)
  | cons kv rest ih =>
    obtain ⟨k, v⟩ := kv
    have hpair : ∀ x, x ∈ quote_plus k ++ '=' :: quote_plus v →
        x.toNat = 38 ∨ x.toNat = 61 ∨
        (48 ≤ x.toNat ∧ x.toNat ≤ 57) ∨ (65 ≤ x.toNat ∧ x.toNat ≤ 90) ∨
        (97 ≤ x.toNat ∧ x.toNat ≤ 122) ∨ x.toNat = 95 ∨ x.toNat = 46 ∨ x.toNat = 45 ∨
        x.toNat = 126 ∨ x.toNat = 43 ∨ x.toNat = 37 := by
      intro x hx
      rcases List.mem_append.mp hx with hx | hx
      · have h9 := quote_plus_toNat hx
        omega
      · rcases List.mem_cons.mp hx with hx | hx
        · subst hx
          right; left; rfl
        · have h9 := quote_plus_toNat hx
          omega
    cases rest with
    | nil =>
      have hc' : c ∈ quote_plus k ++ '=' :: quote_plus v := by
        simpa [urlencode, joinWith] using hc
      exact hpair c hc'
    | cons kv2 rest2 =>
      have hc' : c ∈ (quote_plus k ++ '=' :: quote_plus v) ++
          '&' :: urlencode (kv2 :: rest2) := hc
      rcases List.mem_append.mp hc' with hx | hx
      · exact hpair c hx
      · rcases List.mem_cons.mp hx with hx | hx
        · subst hx
          left; rfl
        · exact ih hx

/-- The first character of an `urlunsplit` with a non-empty scheme is the
scheme's first character. -/
theorem pyUrlunsplit_headD (s n p q : Str) (hs_ne : s ≠ []) :
    (pyUrlunsplit s n p q []).headD 'x' = s.headD 'x' := by
  rw [pyUrlunsplit,
    if_neg (show ¬(([] : Str) ≠ []) from fun hc => hc rfl)]
  by_cases hq0 : q = []
  · rw [if_neg (show ¬(q ≠ []) from fun hc => hc hq0), if_pos hs_ne]
    by_cases hcond : n ≠ [] ∨ (s ≠ [] ∧ uses_netloc.contains s = true ∧
        p.take 2 ≠ ['/', '/'])
    · rw [if_pos hcond]
      exact headD_append_left hs_ne _ _
    · rw [if_neg hcond]
      exact headD_append_left hs_ne _ _
  · rw [if_pos (show q ≠ [] from hq0), if_pos hs_ne]
    by_cases hcond : n ≠ [] ∨ (s ≠ [] ∧ uses_netloc.contains s = true ∧
        p.take 2 ≠ ['/', '/'])
    · rw [if_pos hcond, List.append_assoc]
      exact headD_append_left hs_ne _ _
    · rw [if_neg hcond, List.append_assoc]
      exact headD_append_left hs_ne _ _

theorem getLastD_ne_nil {l : Str} (h : l ≠ []) (d d' : Char) :
    l.getLastD d = l.getLastD d' := by
  rw [List.getLastD_eq_getLast?, List.getLastD_eq_getLast?]
  cases hgl : l.getLast? with
  | none => exact absurd (List.getLast?_eq_none_iff.mp hgl) h
  | some x => rfl

/-- The last character of an `urlunsplit` with an empty fragment is the
query's last character, or the path's when the query is empty. -/
theorem pyUrlunsplit_getLastD (s n p q : Str) (hs_ne : s ≠ []) (hp_ne : p ≠ []) :
    (pyUrlunsplit s n p q []).getLastD 'x' =
      (if q = [] then p.getLastD 'x' else q.getLastD 'x') := by
  rw [pyUrlunsplit,
    if_neg (show ¬(([] : Str) ≠ []) from fun hc => hc rfl)]
  have hfix_ne : (if p ≠ [] ∧ p.headD ' ' ≠ '/' then '/' :: p else p) ≠ [] := by
    by_cases hfx : p ≠ [] ∧ p.headD ' ' ≠ '/'
    · rw [if_pos hfx]; simp
    · rw [if_neg hfx]; exact hp_ne
  have hfix_last : (if p ≠ [] ∧ p.headD ' ' ≠ '/' then '/' :: p else p).getLastD 'x'
      = p.getLastD 'x' := by
    by_cases hfx : p ≠ [] ∧ p.headD ' ' ≠ '/'
    · rw [if_pos hfx, List.getLastD_cons]
      exact getLastD_ne_nil hp_ne _ _
    · rw [if_neg hfx]
  have hcore : (if n ≠ [] ∨ (s ≠ [] ∧ uses_netloc.contains s = true ∧
        p.take 2 ≠ ['/', '/']) then
        ('/' :: '/' :: n) ++ (if p ≠ [] ∧ p.headD ' ' ≠ '/' then '/' :: p else p)
      else p).getLastD 'x' = p.getLastD 'x' := by
    by_cases hcond : n ≠ [] ∨ (s ≠ [] ∧ uses_netloc.contains s = true ∧
        p.take 2 ≠ ['/', '/'])
    · rw [if_pos hcond, getLastD_append_right hfix_ne, hfix_last]
    · rw [if_neg hcond]
  have hcore_ne : (if n ≠ [] ∨ (s ≠ [] ∧ uses_netloc.contains s = true ∧
        p.take 2 ≠ ['/', '/']) then
        ('/' :: '/' :: n) ++ (if p ≠ [] ∧ p.headD ' ' ≠ '/' then '/' :: p else p)
      else p) ≠ [] := by
    by_cases hcond : n ≠ [] ∨ (s ≠ [] ∧ uses_netloc.contains s = true ∧
        p.take 2 ≠ ['/', '/'])
    · rw [if_pos hcond]; simp
    · rw [if_neg hcond]; exact hp_ne
  by_cases hq0 : q = []
  · rw [if_neg (show ¬(q ≠ []) from fun hc => hc hq0), if_pos hs_ne, if_pos hq0,
      getLastD_append_right (by simp [hcore_ne])]
    rw [List.getLastD_cons]
    rw [show (if n ≠ [] ∨ (s ≠ [] ∧ uses_netloc.contains s = true ∧
        p.take 2 ≠ ['/', '/']) then
        ('/' :: '/' :: n) ++ (if p ≠ [] ∧ p.headD ' ' ≠ '/' then '/' :: p else p)
      else p).getLastD ':' = p.getLastD 'x' from
      (getLastD_ne_nil hcore_ne _ _).trans hcore]
  · rw [if_pos (show q ≠ [] from hq0), if_pos hs_ne, if_neg hq0,
      getLastD_append_right (show ('?' :: q) ≠ [] by simp), List.getLastD_cons]
    exact getLastD_ne_nil hq0 _ _

theorem pyUrlunparse_no_params (s n p q : Str) :
    pyUrlunparse ⟨s, n, p, [], q, []⟩ = pyUrlunsplit s n p q [] := by
  rw [pyUrlunparse]
  rw [if_neg (show ¬(([] : Str) ≠ []) from fun hc => hc rfl)]

/-- For an empty-authority `uses_netloc` URL whose path does not start
with `'/'`, `urlunsplit` already prepends the slash, so prepending it to
the path first makes no difference. -/
theorem unsplit_prepend_slash (s p q : Str) (hs_ne : s ≠ [])
    (hun : uses_netloc.contains s = true)
    (hp_ne : p ≠ []) (hhd : ¬(p.headD ' ' = '/')) :
    pyUrlunsplit s [] ('/' :: p) q [] = pyUrlunsplit s [] p q [] := by
  obtain ⟨c, t, hp⟩ : ∃ c t, p = c :: t := by
    cases p with
    | nil => exact absurd rfl hp_ne
    | cons c t => exact ⟨c, t, rfl⟩
  have hc : ¬(c = '/') := by
    rw [hp] at hhd
    simpa using hhd
  have h1 : ('/' :: p).take 2 ≠ ['/', '/'] := by
    rw [hp]
    intro heq
    simp only [List.take_succ_cons, List.take_zero] at heq
    exact hc (by injection heq with h1 h2; injection h2)
  have h2 : p.take 2 ≠ ['/', '/'] := by
    rw [hp]
    intro heq
    cases t with
    | nil => simp at heq
    | cons d t' =>
      simp only [List.take_succ_cons, List.take_zero] at heq
      exact hc (by injection heq)
  have hL : pyUrlunsplit s [] ('/' :: p) q [] =
      (if q ≠ [] then (s ++ ':' :: (['/', '/'] ++ ('/' :: p))) ++ '?' :: q
        else s ++ ':' :: (['/', '/'] ++ ('/' :: p))) := by
    rw [pyUrlunsplit,
      if_neg (show ¬(([] : Str) ≠ []) from fun hc => hc rfl)]
    by_cases hq0 : q = []
    · rw [if_neg (show ¬(q ≠ []) from fun hc => hc hq0),
        if_neg (show ¬(q ≠ []) from fun hc => hc hq0), if_pos hs_ne,
        if_pos (Or.inr ⟨hs_ne, hun, h1⟩),
        if_neg (show ¬('/' :: p ≠ [] ∧ ('/' :: p).headD ' ' ≠ '/') from
          fun hcc => hcc.2 rfl)]
    · rw [if_pos (show q ≠ [] from hq0), if_pos (show q ≠ [] from hq0), if_pos hs_ne,
        if_pos (Or.inr ⟨hs_ne, hun, h1⟩),
        if_neg (show ¬('/' :: p ≠ [] ∧ ('/' :: p).headD ' ' ≠ '/') from
          fun hcc => hcc.2 rfl)]
  have hR : pyUrlunsplit s [] p q [] =
      (if q ≠ [] then (s ++ ':' :: (['/', '/'] ++ ('/' :: p))) ++ '?' :: q
        else s ++ ':' :: (['/', '/'] ++ ('/' :: p))) := by
    rw [pyUrlunsplit,
      if_neg (show ¬(([] : Str) ≠ []) from fun hc => hc rfl)]
    by_cases hq0 : q = []
    · rw [if_neg (show ¬(q ≠ []) from fun hc => hc hq0),
        if_neg (show ¬(q ≠ []) from fun hc => hc hq0), if_pos hs_ne,
        if_pos (Or.inr ⟨hs_ne, hun, h2⟩),
        if_pos (show p ≠ [] ∧ p.headD ' ' ≠ '/' from ⟨hp_ne, hhd⟩)]
    · rw [if_pos (show q ≠ [] from hq0), if_pos (show q ≠ [] from hq0), if_pos hs_ne,
        if_pos (Or.inr ⟨hs_ne, hun, h2⟩),
        if_pos (show p ≠ [] ∧ p.headD ' ' ≠ '/' from ⟨hp_ne, hhd⟩)]
  rw [hL, hR]

theorem lastSeg_cons_slash (p : Str) : lastSeg ('/' :: p) = lastSeg p := by
  rw [lastSeg, lastSeg]
  rw [show ('/' :: p).reverse = p.reverse ++ ['/'] by simp]
  rw [List.takeWhile_append]
  by_cases hlen : (p.reverse.takeWhile (fun c => !(c == '/'))).length = p.reverse.length
  · rw [if_pos hlen]
    have heq := (List.takeWhile_sublist (l := p.reverse)
      (fun c => !(c == '/'))).eq_of_length hlen
    rw [show List.takeWhile (fun c => !(c == '/')) ['/'] = [] from rfl,
      List.append_nil, heq]
  · rw [if_neg hlen]

theorem getLast?_cons_ne_nil {p : Str} (h : p ≠ []) (c : Char) :
    (c :: p).getLast? = p.getLast? := by
  rw [show c :: p = [c] ++ p by rfl, List.getLast?_append]
  cases hgl : p.getLast? with
  | none => exact absurd (List.getLast?_eq_none_iff.mp hgl) h
  | some x => rfl

theorem isAsciiAlpha_not_ws {c : Char} (h : isAsciiAlpha c = true) :
    pyWs c = false := by
  simp only [isAsciiAlpha, Bool.or_eq_true, Bool.and_eq_true, decide_eq_true_eq] at h
  simp only [pyWs, Bool.or_eq_false_iff, beq_eq_false_iff_ne, ne_eq]
  omega


theorem headD_ne_nil {l : Str} (h : l ≠ []) (d d' : Char) :
    l.headD d = l.headD d' := by
  cases l with
  | nil => exact absurd rfl h
  | cons c t => rfl

theorem getLastD_mem {l : Str} (h : l ≠ []) (d : Char) : l.getLastD d ∈ l := by
  rw [List.getLastD_eq_getLast?]
  cases hgl : l.getLast? with
  | none => exact absurd (List.getLast?_eq_none_iff.mp hgl) h
  | some x => exact List.mem_of_mem_getLast? hgl

/-- The second `normalize_url` pass is the identity once the stripped
input re-parses to stable components that reassemble to the input
itself. -/
theorem normalize_of_parsed (y s n pm q : Str)
    (hstrip : pyStrip y = y)
    (hparse : pyUrlparseFull [] y = (⟨s, n, pm, [], q, []⟩, true))
    (hs_ne : s ≠ []) (hs_low : lowerStr s = s) (hn_low : lowerStr n = n)
    (hpm_ne : pm ≠ [])
    (hq_round : urlencode ((parse_qsl q).filter
        (fun kv => !(dropParamKeys.contains (lowerStr kv.1)))) = q)
    (hApm : ¬(pm ≠ ['/'] ∧ pm.getLast? = some '/'))
    (hout : pyUrlunsplit s n pm q [] = y) :
    normalize_url y = y := by
  rw [normalize_url, hstrip, hparse]
  rw [if_pos rfl]
  dsimp only
  rw [if_neg (show ¬(s = []) from hs_ne), hs_low, hn_low,
    if_neg (show ¬(pm = []) from hpm_ne), hq_round, if_neg hApm,
    pyUrlunparse_no_params, hout]


/-- One fully-reassembled `urlunsplit` output is a fixed point of
`normalize_url` when its components are stable (conditions A-D of the
amended claim). -/
theorem normalize_second_pass (s n p q : Str)
    (hs_ne : s ≠ []) (hs_head : isAsciiAlpha (s.headD '0') = true)
    (hs_chars : s.all isSchemeChar = true) (hs_low : lowerStr s = s)
    (hn : ∀ c ∈ n, notDelim c = true) (hn_cl : ∀ c ∈ n, isUnsafeUrlChar c = false)
    (hn_low : lowerStr n = n)
    (hbr : (n.contains '[' == n.contains ']') = true)
    (hp_ne : p ≠ []) (hp_hash : ('#' : Char) ∉ p) (hp_q : ('?' : Char) ∉ p)
    (hp_cl : ∀ c ∈ p, isUnsafeUrlChar c = false)
    (hnp : n ≠ [] → p.headD ' ' = '/')
    (hq_set : ∀ c ∈ q, c.toNat = 38 ∨ c.toNat = 61 ∨
      (48 ≤ c.toNat ∧ c.toNat ≤ 57) ∨ (65 ≤ c.toNat ∧ c.toNat ≤ 90) ∨
      (97 ≤ c.toNat ∧ c.toNat ≤ 122) ∨ c.toNat = 95 ∨ c.toNat = 46 ∨ c.toNat = 45 ∨
      c.toNat = 126 ∨ c.toNat = 43 ∨ c.toNat = 37)
    (hq_round : urlencode ((parse_qsl q).filter
        (fun kv => !(dropParamKeys.contains (lowerStr kv.1)))) = q)
    (hA : p = ['/'] ∨ ¬(p.getLast? = some '/'))
    (hB : (';' : Char) ∉ lastSeg p)
    (hC : q ≠ [] ∨ pyWs (p.getLastD 'x') = false)
    (hD : ¬(n = [] ∧ p.take 2 = ['/', '/'])) :
    normalize_url (pyUrlunsplit s n p q []) = pyUrlunsplit s n p q [] := by
  have hq_hash : ('#' : Char) ∉ q := by
    intro hm
    have h9 := hq_set _ hm
    rw [show ('#' : Char).toNat = 35 from rfl] at h9
    omega
  have hq_cl : ∀ c ∈ q, isUnsafeUrlChar c = false := by
    intro c hc
    have h9 := hq_set c hc
    simp only [isUnsafeUrlChar, Bool.or_eq_false_iff, beq_eq_false_iff_ne, ne_eq]
    omega
  have hstrip : pyStrip (pyUrlunsplit s n p q []) = pyUrlunsplit s n p q [] := by
    refine pyStrip_eq_self_of ?_ ?_
    · rw [pyUrlunsplit_headD s n p q hs_ne, headD_ne_nil hs_ne 'x' '0']
      exact isAsciiAlpha_not_ws hs_head
    · rw [pyUrlunsplit_getLastD s n p q hs_ne hp_ne]
      by_cases hq0 : q = []
      · rw [if_pos hq0]
        rcases hC with hC | hC
        · exact absurd hq0 hC
        · exact hC
      · rw [if_neg hq0]
        have h9 := hq_set _ (getLastD_mem hq0 'x')
        simp only [pyWs, Bool.or_eq_false_iff, beq_eq_false_iff_ne, ne_eq]
        omega
  have hsplit := reparse_split s n p q hs_ne hs_head hs_chars hs_low hn hn_cl
    hp_ne hp_hash hp_q hp_cl hnp hq_hash hq_cl hD
  by_cases hIIb : n = [] ∧ uses_netloc.contains s = true ∧ ¬(p.headD ' ' = '/')
  · obtain ⟨hn0, hun, hhd⟩ := hIIb
    subst hn0
    rw [if_pos ⟨rfl, hun, hhd⟩] at hsplit
    have hsplit' : pyUrlsplitFull [] (pyUrlunsplit s [] p q []) =
        (⟨s, [], '/' :: p, q, []⟩, true) := by
      rw [hsplit, hbr]
    have hBpm : (';' : Char) ∉ lastSeg ('/' :: p) := by
      rw [lastSeg_cons_slash]
      exact hB
    have hparse : pyUrlparseFull [] (pyUrlunsplit s [] p q []) =
        (⟨s, [], '/' :: p, [], q, []⟩, true) := by
      rw [pyUrlparseFull, hsplit']
      dsimp only
      by_cases hup : uses_params.contains s = true
      · rw [if_pos hup, splitparams_of_not_mem hBpm]
      · rw [if_neg hup]
    have hApm : ¬('/' :: p ≠ ['/'] ∧ ('/' :: p).getLast? = some '/') := by
      intro hcc
      rw [getLast?_cons_ne_nil hp_ne] at hcc
      rcases hA with hA | hA
      · exact hhd (by rw [hA]; rfl)
      · exact hA hcc.2
    exact normalize_of_parsed _ s [] ('/' :: p) q hstrip hparse hs_ne hs_low rfl
      (by simp) hq_round hApm
      (unsplit_prepend_slash s p q hs_ne hun hp_ne hhd)
  · rw [if_neg hIIb] at hsplit
    have hsplit' : pyUrlsplitFull [] (pyUrlunsplit s n p q []) =
        (⟨s, n, p, q, []⟩, true) := by
      rw [hsplit, hbr]
    have hparse : pyUrlparseFull [] (pyUrlunsplit s n p q []) =
        (⟨s, n, p, [], q, []⟩, true) := by
      rw [pyUrlparseFull, hsplit']
      dsimp only
      by_cases hup : uses_params.contains s = true
      · rw [if_pos hup, splitparams_of_not_mem hB]
      · rw [if_neg hup]
    have hApm : ¬(p ≠ ['/'] ∧ p.getLast? = some '/') := by
      intro hcc
      rcases hA with hA | hA
      · exact hcc.1 hA
      · exact hA hcc.2
    exact normalize_of_parsed _ s n p q hstrip hparse hs_ne hs_low hn_low
      hp_ne hq_round hApm rfl


theorem urlsplit_ok_brackets (ds url : Str) :
    (pyUrlsplitFull ds url).2 =
      ((pyUrlsplitFull ds url).1.netloc.contains '[' ==
        (pyUrlsplitFull ds url).1.netloc.contains ']') := rfl

/-- Facts about `normalize_url`'s defaulted-and-lowered scheme. -/
theorem scheme_defaulted_facts {sc : Str}
    (hs : sc = [] ∨ (sc ≠ [] ∧ isAsciiAlpha (sc.headD '0') = true ∧
      sc.all isSchemeChar = true ∧ lowerStr sc = sc)) :
    lowerStr (if sc = [] then "https".toList else sc) ≠ [] ∧
    isAsciiAlpha ((lowerStr (if sc = [] then "https".toList else sc)).headD '0') = true ∧
    (lowerStr (if sc = [] then "https".toList else sc)).all isSchemeChar = true ∧
    lowerStr (lowerStr (if sc = [] then "https".toList else sc))
      = lowerStr (if sc = [] then "https".toList else sc) := by
  rcases hs with hs0 | ⟨hne, hhd, hch, hlo⟩
  · rw [if_pos hs0]
    exact ⟨by decide, by decide, by decide, by decide⟩
  · rw [if_neg hne, hlo]
    exact ⟨hne, hhd, hch, hlo⟩

theorem headD_dropLast {l : Str} (h : 2 ≤ l.length) (d : Char) :
    l.dropLast.headD d = l.headD d := by
  cases l with
  | nil => simp at h
  | cons c t =>
    cases t with
    | nil => simp at h
    | cons e t' => rfl

/-- The stability condition of the amended idempotence claim, computed by
the same steps as `normalize_url`: on inputs whose parse succeeds, after
normalization (a) the path must not still end in a slash unless it is the
root path, (b) the last path segment must not contain `';'`, (c) the path
must not end in whitespace when the query is empty, and (d) an empty
authority must not be followed by a path starting `'//'`.  Inputs whose
parse fails always satisfy the condition (the fallback is idempotent). -/
def normIdemCond (u0 : Str) : Bool :=
  let u := pyStrip u0
  let pr := pyUrlparseFull [] u
  if pr.2 then
    let p := pr.1
    let netloc := lowerStr p.netloc
    let path0 := if p.path = [] then ['/'] else p.path
    let qs := parse_qsl p.query
    let qs2 := qs.filter (fun kv => !(dropParamKeys.contains (lowerStr kv.1)))
    let query := urlencode qs2
    let path := if path0 ≠ ['/'] ∧ path0.getLast? = some '/' then path0.dropLast else path0
    ((path == ['/']) || !(path.getLast? == some '/')) &&
      (!((lastSeg path).contains ';')) &&
      ((!(query == [])) || !(pyWs (path.getLastD 'x'))) &&
      (!((netloc == []) && (path.take 2 == ['/', '/'])))
  else true


theorem bool_orNot_elim {a b : Bool} (h : (a || !b) = true) : a = true ∨ b = false := by
  cases a with
  | true => exact Or.inl rfl
  | false =>
    cases b with
    | false => exact Or.inr rfl
    | true => simp at h

theorem bool_orNotNot_elim {a b : Bool} (h : ((!a) || !b) = true) :
    a = false ∨ b = false := by
  cases a with
  | false => exact Or.inl rfl
  | true =>
    cases b with
    | false => exact Or.inr rfl
    | true => simp at h

theorem bool_notAnd_elim {a b : Bool} (h : (!(a && b)) = true) :
    a = false ∨ b = false := by
  cases a with
  | false => exact Or.inl rfl
  | true =>
    cases b with
    | false => exact Or.inr rfl
    | true => simp at h

theorem bool_not_elim {a : Bool} (h : (!a) = true) : a = false := by
  cases a with
  | false => rfl
  | true => simp at h

/-- C3 (amended): the spec's example equality holds, and `normalize_url`
is idempotent on every input satisfying the stability condition
`normIdemCond` (the counterexample `claim_C3_counterexample` shows the
unconditional statement is false). -/
theorem claim_C3_amended :
    (normalize_url ("HTTPS://Example.com/Page/?utm_source=x".toList)
        = normalize_url ("https://example.com/Page".toList)) ∧
    ∀ u0 : Str, normIdemCond u0 = true →
      normalize_url (normalize_url u0) = normalize_url u0 := by
  refine ⟨by decide, ?_⟩
  intro u0 hc
  by_cases hpr2 : (pyUrlparseFull [] (pyStrip u0)).2 = true
  · have hinv := urlparse_invariants (pyStrip u0)
    have hbr0 : ((pyUrlparseFull [] (pyStrip u0)).1.netloc.contains '[' ==
        (pyUrlparseFull [] (pyStrip u0)).1.netloc.contains ']') = true := by
      rw [show (pyUrlparseFull [] (pyStrip u0)).1.netloc
          = (pyUrlsplitFull [] (pyStrip u0)).1.netloc from rfl,
        ← urlsplit_ok_brackets]
      rw [← urlparse_ok_eq]
      exact hpr2
    rw [normIdemCond] at hc
    rw [if_pos hpr2] at hc
    obtain ⟨hs_inv, hnd_inv, hncl_inv, ⟨hph_inv, hpq_inv⟩, hpcl_inv, hphd_inv⟩ := hinv
    set P := (pyUrlparseFull [] (pyStrip u0)).1 with hPdef
    set s' := lowerStr (if P.scheme = [] then "https".toList else P.scheme) with hsy
    set n' := lowerStr P.netloc with hny
    set path0 := (if P.path = [] then ['/'] else P.path) with hpath0def
    set qs2 := ((parse_qsl P.query).filter
      (fun kv => !(dropParamKeys.contains (lowerStr kv.1)))) with hqs2def
    set query' := urlencode qs2 with hquerydef
    set path' := (if path0 ≠ ['/'] ∧ path0.getLast? = some '/' then path0.dropLast
      else path0) with hpathdef
    simp only [Bool.and_eq_true] at hc
    obtain ⟨⟨⟨hA0, hB0⟩, hC0⟩, hD0⟩ := hc
    have hA : path' = ['/'] ∨ ¬(path'.getLast? = some '/') := by
      rcases bool_orNot_elim hA0 with h | h
      · exact Or.inl (beq_iff_eq.mp h)
      · right
        intro heq
        exact (by decide : ¬(true = false)) ((beq_iff_eq.mpr heq).symm.trans h)
    have hB : (';' : Char) ∉ lastSeg path' := by
      intro hm
      exact (by decide : ¬(true = false)) ((List.elem_iff.mpr hm).symm.trans (bool_not_elim hB0))
    have hC : query' ≠ [] ∨ pyWs (path'.getLastD 'x') = false := by
      rcases bool_orNotNot_elim hC0 with h | h
      · left
        intro heq
        exact (by decide : ¬(true = false)) ((beq_iff_eq.mpr heq).symm.trans h)
      · exact Or.inr h
    have hD : ¬(n' = [] ∧ path'.take 2 = ['/', '/']) := by
      rintro ⟨h1, h2⟩
      rcases bool_notAnd_elim hD0 with h | h
      · exact (by decide : ¬(true = false)) ((beq_iff_eq.mpr h1).symm.trans h)
      · exact (by decide : ¬(true = false)) ((beq_iff_eq.mpr h2).symm.trans h)
    -- scheme facts
    obtain ⟨hs_ne, hs_head, hs_chars, hs_low⟩ := scheme_defaulted_facts hs_inv
    rw [← hsy] at hs_ne hs_head hs_chars hs_low
    -- netloc facts
    have hn : ∀ c ∈ n', notDelim c = true := by
      intro c hcm
      rw [hny] at hcm
      obtain ⟨c0, hc0, hc0e⟩ := List.mem_map.mp hcm
      exact hc0e ▸ notDelim_toLower (hnd_inv c0 hc0)
    have hn_cl : ∀ c ∈ n', isUnsafeUrlChar c = false := by
      intro c hcm
      rw [hny] at hcm
      obtain ⟨c0, hc0, hc0e⟩ := List.mem_map.mp hcm
      rw [← hc0e, isUnsafeUrlChar_toLower]
      exact hncl_inv c0 hc0
    have hn_low : lowerStr n' = n' := by
      rw [hny]
      exact lowerStr_idem _
    have hbr : (n'.contains '[' == n'.contains ']') = true := by
      rw [hny, contains_lowerStr_nonletter (by decide),
        contains_lowerStr_nonletter (by decide)]
      exact hbr0
    -- path facts
    have hpath0_ne : path0 ≠ [] := by
      rw [hpath0def]
      by_cases hp0 : P.path = []
      · rw [if_pos hp0]; simp
      · rw [if_neg hp0]; exact hp0
    have hpath0_hash : ('#' : Char) ∉ path0 := by
      rw [hpath0def]
      by_cases hp0 : P.path = []
      · rw [if_pos hp0]; decide
      · rw [if_neg hp0]; exact hph_inv
    have hpath0_q : ('?' : Char) ∉ path0 := by
      rw [hpath0def]
      by_cases hp0 : P.path = []
      · rw [if_pos hp0]; decide
      · rw [if_neg hp0]; exact hpq_inv
    have hpath0_cl : ∀ c ∈ path0, isUnsafeUrlChar c = false := by
      rw [hpath0def]
      by_cases hp0 : P.path = []
      · rw [if_pos hp0]; intro c hcm; simp only [List.mem_singleton] at hcm
        subst hcm; decide
      · rw [if_neg hp0]; exact hpcl_inv
    have hpath_sub : path' ⊆ path0 := by
      rw [hpathdef]
      by_cases hdl : path0 ≠ ['/'] ∧ path0.getLast? = some '/'
      · rw [if_pos hdl]; exact List.dropLast_subset _
      · rw [if_neg hdl]; exact List.Subset.refl _
    have hp_hash : ('#' : Char) ∉ path' := fun hm => hpath0_hash (hpath_sub hm)
    have hp_q : ('?' : Char) ∉ path' := fun hm => hpath0_q (hpath_sub hm)
    have hp_cl : ∀ c ∈ path', isUnsafeUrlChar c = false :=
      fun c hcm => hpath0_cl c (hpath_sub hcm)
    have hpath0_len2 : (path0 ≠ ['/'] ∧ path0.getLast? = some '/') → 2 ≤ path0.length := by
      rintro ⟨hne1, hgl⟩
      cases hp0 : path0 with
      | nil => rw [hp0] at hgl; simp at hgl
      | cons c t =>
        cases t with
        | nil =>
          rw [hp0] at hgl
          simp only [List.getLast?_singleton, Option.some.injEq] at hgl
          rw [hp0, hgl] at hne1
          exact absurd rfl hne1
        | cons d t' => simp [hp0]
    have hp_ne : path' ≠ [] := by
      rw [hpathdef]
      by_cases hdl : path0 ≠ ['/'] ∧ path0.getLast? = some '/'
      · rw [if_pos hdl]
        have h2 := hpath0_len2 hdl
        have := List.length_dropLast path0
        intro h0
        rw [h0] at this
        simp at this
        omega
      · rw [if_neg hdl]; exact hpath0_ne
    have hnp : n' ≠ [] → path'.headD ' ' = '/' := by
      intro hne
      have hnl : P.netloc ≠ [] := by
        intro h0
        rw [hny, h0] at hne
        exact hne rfl
      have hpath0_hd : path0.headD ' ' = '/' := by
        rw [hpath0def]
        by_cases hp0 : P.path = []
        · rw [if_pos hp0]; rfl
        · rw [if_neg hp0]
          rcases hphd_inv hnl with h | h
          · exact absurd h hp0
          · exact h
      rw [hpathdef]
      by_cases hdl : path0 ≠ ['/'] ∧ path0.getLast? = some '/'
      · rw [if_pos hdl, headD_dropLast (hpath0_len2 hdl)]
        exact hpath0_hd
      · rw [if_neg hdl]
        exact hpath0_hd
    -- query facts
    have hq_set : ∀ c ∈ query', c.toNat = 38 ∨ c.toNat = 61 ∨
        (48 ≤ c.toNat ∧ c.toNat ≤ 57) ∨ (65 ≤ c.toNat ∧ c.toNat ≤ 90) ∨
        (97 ≤ c.toNat ∧ c.toNat ≤ 122) ∨ c.toNat = 95 ∨ c.toNat = 46 ∨ c.toNat = 45 ∨
        c.toNat = 126 ∨ c.toNat = 43 ∨ c.toNat = 37 := by
      intro c hcm
      rw [hquerydef] at hcm
      exact urlencode_toNat hcm
    have hq_round : urlencode ((parse_qsl query').filter
        (fun kv => !(dropParamKeys.contains (lowerStr kv.1)))) = query' := by
      rw [hquerydef, parse_qsl_urlencode, hqs2def, filter_filter_self]
    -- first pass
    have hY : normalize_url u0 = pyUrlunsplit s' n' path' query' [] := by
      rw [normalize_url, if_pos hpr2, pyUrlunparse_no_params]
    rw [hY]
    exact normalize_second_pass s' n' path' query' hs_ne hs_head hs_chars hs_low
      hn hn_cl hn_low hbr hp_ne hp_hash hp_q hp_cl hnp hq_set hq_round hA hB hC hD
  · have h1 : normalize_url u0 = pyStrip u0 := by
      rw [normalize_url, if_neg hpr2]
    rw [h1, normalize_url, pyStrip_idem, if_neg hpr2]

theorem claim_C3_amended_witness :
    normIdemCond ("https://example.com/Page/?utm_source=x".toList) = true ∧
    normalize_url (normalize_url ("https://example.com/Page/?utm_source=x".toList))
      = normalize_url ("https://example.com/Page/?utm_source=x".toList) :=
  ⟨by decide, claim_C3_amended.2 _ (by decide)⟩

end App
